import Mathlib

/-!
# multi-level-cache-go-sdk: the cache client, embedded in Lean

A shallow embedding of `cache/models.go` and `cache/client.go`.

* Go `string` values and HTTP response bodies are modelled as text (`String`, a sequence of
  Unicode code points, i.e. valid UTF-8); request payloads are byte sequences (`List UInt8`),
  because a gzip-compressed payload is not text.
* A Go slice is `Slice α`: `nil` or a (possibly empty) sequence. `encoding/json` tells the two
  apart.
* `encoding/json` is modelled for the types the client uses: the encoder writes Go's compact
  form (with HTML escaping, as `json.Marshal` does), the decoder is the scanner state machine of
  `json.Decoder` reading the first JSON value of the stream, followed by the struct decoding
  rules for `CacheEntryHit[T]`. A JSON grammar (`Spells`) says, independently of the scanner,
  which texts are JSON; the scanner is proved sound for it.
* The type parameter `T` comes with a `Codec T`: its zero value and what `encoding/json` does
  when it encodes a `T` and decodes into a `T`.
* The outside world is a parameter: URL validation of `http.NewRequestWithContext`, the gzip
  writer, and the HTTP client (`Transport`). The caller's `ctx` only influences what the
  transport answers, so it is part of that parameter.
* Every operation returns an `Outcome`: the Go result together with the ordered trace of the
  effects it performed (deadline creation and cancellation, the request handed to the
  transport, reads of the response body).
* A response is its status code and the text of its body. A read of the body before the
  deadline context is cancelled delivers that text. Once the context is cancelled the
  connection is shut: a reader then gets the part of the body that has already arrived and,
  unless that is the whole body, the error `context canceled`. How much has arrived by then
  is a matter of timing and a parameter of the model (`Env.arrived`).
-/

namespace Cache

/-! ## Data model (`models.go`) -/

abbrev Bytes := List UInt8

/-- A Go slice value: `nil`, or a sequence of elements (which may be empty). -/
inductive Slice (α : Type) where
  | nil
  | mk (elems : List α)
  deriving DecidableEq, Repr

/-- The elements of a slice; a nil slice has none. -/
def Slice.toList {α : Type} : Slice α → List α
  | .nil => []
  | .mk xs => xs

structure CacheId where
  CacheName : String
  Key : String
  deriving DecidableEq, Repr

structure CacheEntry (T : Type) where
  CacheName : String
  Key : String
  Value : T
  deriving DecidableEq, Repr

structure CacheEntryHit (T : Type) where
  CacheName : String
  Key : String
  Value : T
  Found : Bool
  deriving DecidableEq, Repr

/-! ## JSON values and the encoder of `encoding/json` -/

/-- A JSON value. Numbers keep their literal text, objects keep member order. -/
inductive Json where
  | null
  | bool (b : Bool)
  | num (lit : String)
  | str (s : String)
  | arr (xs : List Json)
  | obj (kvs : List (String × Json))
  deriving Repr

/-- What `encoding/json` does for the values of a Go type `T`. -/
structure Codec (T : Type) where
  /-- The zero value of `T`. -/
  zero : T
  /-- The JSON value `json.Marshal` writes for a `T`, or `none` when it returns an error. -/
  marshal : T → Option Json
  /-- Decoding a JSON value into a variable currently holding `t`; `none` when the decoder
  reports an error. -/
  unmarshal : Json → T → Option T

/-- The codec of Go's `string` type: a JSON string is stored, `null` leaves the variable
unchanged, every other JSON value is a type error. -/
def stringCodec : Codec String where
  zero := ""
  marshal := fun s => some (.str s)
  unmarshal := fun j t =>
    match j with
    | .str s => some s
    | .null => some t
    | _ => none

/-- Lower-case hexadecimal digit, as in the encoder's table `0123456789abcdef`. -/
def hexDigit (n : Nat) : Char :=
  if n < 10 then Char.ofNat (48 + n) else Char.ofNat (87 + n)

/-- The encoder's rendering of one character inside a string literal (`appendString` with
`escapeHTML` on, Go 1.22 and later). -/
def quoteChar (c : Char) : List Char :=
  if c = '"' then ['\\', '"']
  else if c = '\\' then ['\\', '\\']
  else if c = '\x08' then ['\\', 'b']
  else if c = '\x0c' then ['\\', 'f']
  else if c = '\n' then ['\\', 'n']
  else if c = '\r' then ['\\', 'r']
  else if c = '\t' then ['\\', 't']
  else if c.toNat < 0x20 ∨ c = '<' ∨ c = '>' ∨ c = '&' then
    ['\\', 'u', '0', '0', hexDigit (c.toNat / 16), hexDigit (c.toNat % 16)]
  else if c.toNat = 0x2028 ∨ c.toNat = 0x2029 then
    ['\\', 'u', '2', '0', '2', hexDigit (c.toNat % 16)]
  else [c]

def quoteBody : List Char → List Char
  | [] => []
  | c :: cs => quoteChar c ++ quoteBody cs

/-- A JSON string literal for `s`. -/
def quote (s : String) : List Char := '"' :: quoteBody s.data ++ ['"']

mutual
/-- The compact text the encoder writes for a JSON value. -/
def render : Json → List Char
  | .num lit => lit.data
  | .null => "null".data
  | .bool b => if b then "true".data else "false".data
  | .str s => quote s
  | .arr xs => '[' :: renderElems xs ++ [']']
  | .obj kvs => '{' :: renderMembers kvs ++ ['}']
/-- Array elements, separated by commas. -/
def renderElems : List Json → List Char
  | [] => []
  | [x] => render x
  | x :: y :: xs => render x ++ ',' :: renderElems (y :: xs)
/-- Object members, separated by commas. -/
def renderMembers : List (String × Json) → List Char
  | [] => []
  | [(k, v)] => quote k ++ ':' :: render v
  | (k, v) :: y :: xs => quote k ++ ':' :: render v ++ ',' :: renderMembers (y :: xs)
end

/-- Applies `f` to every element; `none` as soon as one application fails. -/
def mapOption {α β : Type} (f : α → Option β) : List α → Option (List β)
  | [] => some []
  | x :: xs =>
    match f x with
    | none => none
    | some y =>
      match mapOption f xs with
      | none => none
      | some ys => some (y :: ys)

/-- The JSON object of a `CacheId`: fields `c` and `k`, in declaration order. -/
def idJson (id : CacheId) : Json :=
  .obj [("c", .str id.CacheName), ("k", .str id.Key)]

/-- The JSON value of a `[]CacheId`: a nil slice encodes as `null`. -/
def idsJson : Slice CacheId → Json
  | .nil => .null
  | .mk ids => .arr (ids.map idJson)

/-- The text `json.Marshal(ids)` returns; it cannot fail for `[]CacheId`. -/
def marshalIds (ids : Slice CacheId) : List Char := render (idsJson ids)

/-- The JSON object of a `CacheEntry[T]`: fields `c`, `k`, `v`. -/
def entryJson {T : Type} (codec : Codec T) (e : CacheEntry T) : Option Json :=
  (codec.marshal e.Value).map fun v => .obj [("c", .str e.CacheName), ("k", .str e.Key), ("v", v)]

def entriesJson {T : Type} (codec : Codec T) : Slice (CacheEntry T) → Option Json
  | .nil => some .null
  | .mk es => (mapOption (entryJson codec) es).map .arr

/-- The text `json.Marshal(entries)` returns, `none` when a value cannot be encoded. -/
def marshalEntries {T : Type} (codec : Codec T) (entries : Slice (CacheEntry T)) :
    Option (List Char) :=
  (entriesJson codec entries).map render

/-- The JSON object of a `CacheEntryHit[T]`: fields `c`, `k`, `v`, `f`. -/
def hitJson {T : Type} (codec : Codec T) (h : CacheEntryHit T) : Option Json :=
  (codec.marshal h.Value).map fun v =>
    .obj [("c", .str h.CacheName), ("k", .str h.Key), ("v", v), ("f", .bool h.Found)]

def hitsJson {T : Type} (codec : Codec T) : Slice (CacheEntryHit T) → Option Json
  | .nil => some .null
  | .mk hs => (mapOption (hitJson codec) hs).map .arr

/-- The text `encoding/json` writes for a `[]CacheEntryHit[T]` (what the test server sends). -/
def marshalHits {T : Type} (codec : Codec T) (hits : Slice (CacheEntryHit T)) :
    Option (List Char) :=
  (hitsJson codec hits).map render

/-- UTF-8 bytes of a text. -/
def utf8 (text : List Char) : Bytes := text.flatMap String.utf8EncodeChar

/-! ## The decoder of `encoding/json`: scanner -/

def isHex (c : Char) : Bool :=
  ('0' ≤ c ∧ c ≤ '9') ∨ ('a' ≤ c ∧ c ≤ 'f') ∨ ('A' ≤ c ∧ c ≤ 'F')

def hexVal (c : Char) : Nat :=
  if '0' ≤ c ∧ c ≤ '9' then c.toNat - 48
  else if 'a' ≤ c ∧ c ≤ 'f' then c.toNat - 87
  else c.toNat - 55

/-- The code unit of a `\uXXXX` escape at the head of the text, if there is one. -/
def getu4 : List Char → Option Nat
  | x :: y :: a :: b :: c :: d :: _ =>
    if x = '\\' ∧ y = 'u' ∧ isHex a ∧ isHex b ∧ isHex c ∧ isHex d then
      some (((hexVal a * 16 + hexVal b) * 16 + hexVal c) * 16 + hexVal d)
    else none
  | _ => none

/-- The character a single-letter escape stands for. -/
def unescape (c : Char) : Char :=
  if c = 'b' then '\x08'
  else if c = 'f' then '\x0c'
  else if c = 'n' then '\n'
  else if c = 'r' then '\r'
  else if c = 't' then '\t'
  else c

/-- Combines a UTF-16 surrogate pair (`utf16.DecodeRune`); `none` stands for the replacement
character the library returns for an invalid pair. -/
def decodeRune (r1 : Nat) (r2 : Option Nat) : Option Char :=
  match r2 with
  | some r2 =>
    if 0xd800 ≤ r1 ∧ r1 < 0xdc00 ∧ 0xdc00 ≤ r2 ∧ r2 < 0xe000 then
      some (Char.ofNat ((r1 - 0xd800) * 1024 + (r2 - 0xdc00) + 0x10000))
    else none
  | none => none

/-- Decodes the inside of a string literal that the scanner has accepted (`unquoteBytes`).
The first argument counts characters still to skip: the second escape of a surrogate pair. -/
def unquoteFrom : Nat → List Char → List Char
  | _, [] => []
  | skip + 1, _ :: rest => unquoteFrom skip rest
  | 0, c :: rest =>
    if c = '\\' then
      match rest with
      | [] => []
      | e :: rest1 =>
        if e = 'u' then
          match rest1 with
          | a :: b :: c1 :: d :: rest2 =>
            let rr := ((hexVal a * 16 + hexVal b) * 16 + hexVal c1) * 16 + hexVal d
            if 0xd800 ≤ rr ∧ rr < 0xe000 then
              match decodeRune rr (getu4 rest2) with
              | some dec => dec :: unquoteFrom 6 rest2
              | none => Char.ofNat 0xfffd :: unquoteFrom 0 rest2
            else Char.ofNat rr :: unquoteFrom 0 rest2
          | _ => []
        else unescape e :: unquoteFrom 0 rest1
    else c :: unquoteFrom 0 rest

def unquote (raw : List Char) : List Char := unquoteFrom 0 raw

/-- The scanner refuses arrays and objects nested deeper than this. -/
def maxNestingDepth : Nat := 10000

/-- An entry of the scanner's parse stack, with the part of the value read so far:
an array and its elements (latest first); an object waiting for a key, with its members
(latest first); an object whose key `k` has been read and whose value is awaited. -/
inductive Frame where
  | arr (acc : List Json)
  | key (acc : List (String × Json))
  | val (acc : List (String × Json)) (k : String)

/-- The scanner states inside a number literal. -/
inductive NumState where
  | neg | zero | int | dot | dot0 | exp | expSign | exp0
  deriving DecidableEq

/-- The scanner's step function, with the text of the token being read (latest first). -/
inductive Mode where
  | beginValue
  | beginValueOrEmpty
  | beginStringOrEmpty
  | beginString
  | endValue
  | inString (raw : List Char)
  | inStringEsc (raw : List Char)
  | inStringEscU (raw : List Char) (seen : Nat)
  | number (ns : NumState) (raw : List Char)
  | literal (todo : List Char) (v : Json)
  /-- A string or a literal at top level has been read; the scanner reports the end of the
  value at the next byte. -/
  | endTop (v : Json)

/-- The outcome of one character: the scanner goes on, or the top-level value is complete
(`back` holds the character if it was looked at but belongs to what follows the value), or
the text is not JSON. -/
inductive Step where
  | next (stack : List Frame) (mode : Mode)
  | done (v : Json) (back : List Char)
  | fail

def isDigit (c : Char) : Bool := '0' ≤ c ∧ c ≤ '9'

def isJsonSpace (c : Char) : Bool := c = ' ' ∨ c = '\t' ∨ c = '\r' ∨ c = '\n'

/-- Transition inside a number literal; `none` when `c` does not continue the literal. -/
def numStep (ns : NumState) (c : Char) : Option NumState :=
  match ns with
  | .neg => if c = '0' then some .zero else if isDigit c then some .int else none
  | .int =>
    if isDigit c then some .int else if c = '.' then some .dot
    else if c = 'e' ∨ c = 'E' then some .exp else none
  | .zero => if c = '.' then some .dot else if c = 'e' ∨ c = 'E' then some .exp else none
  | .dot => if isDigit c then some .dot0 else none
  | .dot0 => if isDigit c then some .dot0 else if c = 'e' ∨ c = 'E' then some .exp else none
  | .exp => if c = '+' ∨ c = '-' then some .expSign else if isDigit c then some .exp0 else none
  | .expSign => if isDigit c then some .exp0 else none
  | .exp0 => if isDigit c then some .exp0 else none

/-- The states in which a number literal may end. -/
def NumState.accepting : NumState → Bool
  | .zero | .int | .dot0 | .exp0 => true
  | _ => false

/-- A value has been read completely: it is the result (empty stack), an array element, an
object key or a member value. -/
def deliver (v : Json) : List Frame → Step
  | [] => .done v []
  | .arr acc :: stack => .next (.arr (v :: acc) :: stack) .endValue
  | .val acc k :: stack => .next (.key ((k, v) :: acc) :: stack) .endValue
  | .key acc :: stack =>
    match v with
    | .str s => .next (.val acc s :: stack) .endValue
    | _ => .fail

/-- Opens an array or object (`pushParseState`). -/
def push (f : Frame) (stack : List Frame) (mode : Mode) : Step :=
  if stack.length + 1 ≤ maxNestingDepth then .next (f :: stack) mode else .fail

def stepEndValue (stack : List Frame) (c : Char) : Step :=
  if isJsonSpace c then .next stack .endValue
  else
    match stack with
    | [] => .fail
    | .arr acc :: rest =>
      if c = ',' then .next stack .beginValue
      else if c = ']' then deliver (.arr acc.reverse) rest
      else .fail
    | .val _ _ :: _ =>
      if c = ':' then .next stack .beginValue else .fail
    | .key acc :: rest =>
      if c = ',' then .next stack .beginString
      else if c = '}' then deliver (.obj acc.reverse) rest
      else .fail

/-- A number literal ends at `c`: the number is delivered and `c` is then read as the
character after a value (at top level it stays in the stream). -/
def deliverNumber (v : Json) (stack : List Frame) (c : Char) : Step :=
  match deliver v stack with
  | .next stack1 _ => stepEndValue stack1 c
  | .done v1 _ => .done v1 [c]
  | .fail => .fail

/-- A string or a literal has been read to its last character. Inside an array or object it
is delivered; at top level the scanner waits for one more byte before it reports the end of
the value. -/
def deliverToken (v : Json) (stack : List Frame) : Step :=
  match stack with
  | [] => .next [] (.endTop v)
  | _ :: _ => deliver v stack

def stepBeginValue (stack : List Frame) (c : Char) : Step :=
  if isJsonSpace c then .next stack .beginValue
  else if c = '{' then push (.key []) stack .beginStringOrEmpty
  else if c = '[' then push (.arr []) stack .beginValueOrEmpty
  else if c = '"' then .next stack (.inString [])
  else if c = '-' then .next stack (.number .neg [c])
  else if c = '0' then .next stack (.number .zero [c])
  else if c = 't' then .next stack (.literal ['r', 'u', 'e'] (.bool true))
  else if c = 'f' then .next stack (.literal ['a', 'l', 's', 'e'] (.bool false))
  else if c = 'n' then .next stack (.literal ['u', 'l', 'l'] .null)
  else if isDigit c then .next stack (.number .int [c])
  else .fail

def stepBeginString (stack : List Frame) (c : Char) : Step :=
  if isJsonSpace c then .next stack .beginString
  else if c = '"' then .next stack (.inString [])
  else .fail

/-- One character through the scanner. -/
def step (stack : List Frame) (mode : Mode) (c : Char) : Step :=
  match mode with
  | .beginValue => stepBeginValue stack c
  | .beginValueOrEmpty =>
    if isJsonSpace c then .next stack .beginValueOrEmpty
    else if c = ']' then stepEndValue stack c
    else stepBeginValue stack c
  | .beginStringOrEmpty =>
    if isJsonSpace c then .next stack .beginStringOrEmpty
    else if c = '}' then stepEndValue stack c
    else stepBeginString stack c
  | .beginString => stepBeginString stack c
  | .endValue => stepEndValue stack c
  | .inString raw =>
    if c = '"' then deliverToken (.str (String.mk (unquote raw.reverse))) stack
    else if c = '\\' then .next stack (.inStringEsc (c :: raw))
    else if c.toNat < 0x20 then .fail
    else .next stack (.inString (c :: raw))
  | .inStringEsc raw =>
    if c = 'b' ∨ c = 'f' ∨ c = 'n' ∨ c = 'r' ∨ c = 't' ∨ c = '\\' ∨ c = '/' ∨ c = '"' then
      .next stack (.inString (c :: raw))
    else if c = 'u' then .next stack (.inStringEscU (c :: raw) 0)
    else .fail
  | .inStringEscU raw seen =>
    if isHex c then
      if seen < 3 then .next stack (.inStringEscU (c :: raw) (seen + 1))
      else .next stack (.inString (c :: raw))
    else .fail
  | .number ns raw =>
    match numStep ns c with
    | some ns1 => .next stack (.number ns1 (c :: raw))
    | none =>
      if ns.accepting then deliverNumber (.num (String.mk raw.reverse)) stack c else .fail
  | .literal todo v =>
    match todo with
    | [] => .fail
    | [x] => if c = x then deliverToken v stack else .fail
    | x :: y :: ys => if c = x then .next stack (.literal (y :: ys) v) else .fail
  | .endTop v => .done v [c]

/-- The errors `Decode` returns: `io.EOF`, `io.ErrUnexpectedEOF`, a syntax error, an error
while storing the value into the target (a type mismatch or an error of the value type), or
the error of the reader it reads from, here `context canceled`. -/
inductive DecodeError where
  | eof
  | unexpectedEOF
  | syntaxError
  | unmarshal
  | canceled
  deriving DecidableEq, Repr

/-- How a stream ends for its reader: with `io.EOF` after the last character, or with the
error `context canceled` of a connection that was shut. -/
inductive Ending where
  | eof
  | canceled
  deriving DecidableEq, Repr

/-- The scanner on the text read so far: the first value is complete (with the text that
follows it), the text is not JSON, or the text has run out in the middle and the scanner
waits in this state. -/
inductive Scan where
  | value (v : Json) (rest : List Char)
  | syntaxError
  | more (stack : List Frame) (mode : Mode)

/-- Runs the scanner until the first complete value; what follows it is not looked at. -/
def run (stack : List Frame) (mode : Mode) : List Char → Scan
  | [] => .more stack mode
  | c :: cs =>
    match step stack mode c with
    | .next stack1 mode1 => run stack1 mode1 cs
    | .done v back => .value v (back ++ cs)
    | .fail => .syntaxError

/-- The stream has ended before the scanner saw the end of a value. An error of the reader
is passed on. At `io.EOF` a top-level number, string or literal ends here; nothing but white
space is `io.EOF`; anything else is a truncated value. -/
def finish (ending : Ending) (stack : List Frame) (mode : Mode) : Except DecodeError Json :=
  match ending with
  | .canceled => .error .canceled
  | .eof =>
    match stack, mode with
    | [], .beginValue => .error .eof
    | [], .endTop v => .ok v
    | [], .number ns raw =>
      if ns.accepting then .ok (.num (String.mk raw.reverse)) else .error .unexpectedEOF
    | _, _ => .error .unexpectedEOF

/-- The first JSON value of a stream and the text left after it (`Decoder.readValue`). -/
def readValue (text : List Char) (ending : Ending) : Except DecodeError (Json × List Char) :=
  match run [] .beginValue text with
  | .value v rest => .ok (v, rest)
  | .syntaxError => .error .syntaxError
  | .more stack mode =>
    match finish ending stack mode with
    | .error e => .error e
    | .ok v => .ok (v, [])

/-! ## The decoder of `encoding/json`: storing into `[]CacheEntryHit[T]` -/

inductive Field where
  | c | k | v | f
  deriving DecidableEq, Repr

/-- The struct field an object key selects: the tag itself or a case-insensitive match
(the Kelvin sign folds to `k`); `none` for keys the decoder skips. -/
def fieldOf (key : String) : Option Field :=
  match key.data with
  | [x] =>
    if x = 'c' ∨ x = 'C' then some .c
    else if x = 'k' ∨ x = 'K' ∨ x.toNat = 0x212a then some .k
    else if x = 'v' ∨ x = 'V' then some .v
    else if x = 'f' ∨ x = 'F' then some .f
    else none
  | _ => none

/-- Stores one object member into the hit. -/
def decodeMember {T : Type} (codec : Codec T) (h : CacheEntryHit T) (m : String × Json) :
    Option (CacheEntryHit T) :=
  match fieldOf m.1 with
  | none => some h
  | some .c =>
    match m.2 with
    | .str s => some { h with CacheName := s }
    | .null => some h
    | _ => none
  | some .k =>
    match m.2 with
    | .str s => some { h with Key := s }
    | .null => some h
    | _ => none
  | some .v => (codec.unmarshal m.2 h.Value).map fun t => { h with Value := t }
  | some .f =>
    match m.2 with
    | .bool b => some { h with Found := b }
    | .null => some h
    | _ => none

def decodeMembers {T : Type} (codec : Codec T) (h : CacheEntryHit T) :
    List (String × Json) → Option (CacheEntryHit T)
  | [] => some h
  | m :: ms =>
    match decodeMember codec h m with
    | none => none
    | some h1 => decodeMembers codec h1 ms

/-- The zero value of `CacheEntryHit[T]`. -/
def zeroHit {T : Type} (codec : Codec T) : CacheEntryHit T :=
  { CacheName := "", Key := "", Value := codec.zero, Found := false }

/-- One array element into a fresh `CacheEntryHit[T]`: an object fills fields, `null` leaves
the zero value, anything else is a type error. -/
def decodeElem {T : Type} (codec : Codec T) : Json → Option (CacheEntryHit T)
  | .obj kvs => decodeMembers codec (zeroHit codec) kvs
  | .null => some (zeroHit codec)
  | _ => none

/-- A JSON value into `var hits []CacheEntryHit[T]` (nil before the call). -/
def unmarshalHits {T : Type} (codec : Codec T) : Json → Option (Slice (CacheEntryHit T))
  | .null => some .nil
  | .arr xs => (mapOption (decodeElem codec) xs).map .mk
  | _ => none

/-- What `json.NewDecoder(body).Decode(&hits)` does on a stream that delivers `text` and then
ends. -/
def Decode {T : Type} (codec : Codec T) (text : List Char) (ending : Ending) :
    Except DecodeError (Slice (CacheEntryHit T)) :=
  match readValue text ending with
  | .error e => .error e
  | .ok (j, _) =>
    match unmarshalHits codec j with
    | none => .error .unmarshal
    | some hits => .ok hits

/-! ## `strings` and `fmt` -/

/-- Go's `unicode.IsSpace`. -/
def isSpace (c : Char) : Bool :=
  c = '\t' ∨ c = '\n' ∨ c = '\x0b' ∨ c = '\x0c' ∨ c = '\r' ∨ c = ' ' ∨
  c.toNat = 0x85 ∨ c.toNat = 0xa0 ∨ c.toNat = 0x1680 ∨
  (0x2000 ≤ c.toNat ∧ c.toNat ≤ 0x200a) ∨ c.toNat = 0x2028 ∨ c.toNat = 0x2029 ∨
  c.toNat = 0x202f ∨ c.toNat = 0x205f ∨ c.toNat = 0x3000

/-- Go's `strings.TrimSpace`. -/
def TrimSpace (s : String) : String :=
  String.mk (List.rdropWhile isSpace (List.dropWhile isSpace s.data))

/-- Go's `strings.HasSuffix(s, "/")`. -/
def hasSuffixSlash (s : String) : Bool := s.data.getLast? = some '/'

/-- Go's `strings.TrimSuffix(s, "/")`: removes one trailing slash, if there is one. -/
def trimSuffixSlash (s : String) : String :=
  if hasSuffixSlash s then String.mk s.data.dropLast else s

/-- The message of `fmt.Errorf("unexpected response code %d: %s", code, text)`. -/
def unexpectedResponse (code : Int) (text : String) : String :=
  "unexpected response code " ++ toString code ++ ": " ++ text

/-! ## The HTTP side -/

/-- HTTP headers: keys with their value. -/
abbrev Header := List (String × String)

/-- Go's `Header.Set`: the key gets this value, replacing any earlier one. -/
def Header.set (h : Header) (key value : String) : Header :=
  h.filter (fun kv => kv.1 ≠ key) ++ [(key, value)]

/-- Go's `Header.Get` for a key that is present; `none` when the key is absent. -/
def Header.get (h : Header) (key : String) : Option String :=
  (h.find? (fun kv => kv.1 = key)).map (fun kv => kv.2)

structure Request where
  method : String
  url : String
  header : Header
  body : Bytes
  contentLength : Nat
  deriving DecidableEq, Repr

structure Response where
  statusCode : Int
  body : String
  deriving DecidableEq, Repr

/-- The Go `error` values the client returns. -/
inductive Err where
  /-- `json.Marshal` rejected a value. -/
  | marshal
  /-- `http.NewRequestWithContext` rejected the URL. -/
  | newRequest
  /-- The gzip writer failed. -/
  | gzip
  /-- `httpClient.Do` failed (connection error, deadline exceeded, cancellation). -/
  | transport (msg : String)
  /-- An error made by `fmt.Errorf`, with its message. -/
  | errorf (msg : String)
  /-- `Decode` failed. -/
  | decode (e : DecodeError)
  deriving DecidableEq, Repr

/-- An injected `*http.Client`: what `Do` returns for a request. -/
abbrev Transport := Request → Except String Response

/-- The libraries and the network around the client. -/
structure Env where
  /-- Whether `http.NewRequestWithContext` accepts the URL. -/
  validURL : String → Bool
  /-- The gzip writer (`Write` then `Close`) on a payload; `none` when it reports an error. -/
  gzip : Bytes → Option Bytes
  /-- The `&http.Client{}` used when no client is injected. -/
  defaultClient : Transport
  /-- How much of the body of a response has reached the client when the context of the
  request is cancelled: `none` when the whole body with its end has, `some n` when only its
  first `n` characters have. -/
  arrived : Response → Option Nat

/-- The effects of an operation, in program order. -/
inductive Event where
  /-- `context.WithTimeout(ctx, timeout)`: the deadline of this call starts. -/
  | withTimeout (timeout : Int)
  /-- The deferred `cancel()`: the deadline context is cancelled and released. -/
  | cancel
  /-- `httpClient.Do(req)`. -/
  | send (req : Request)
  /-- `io.ReadAll(resp.Body)`. -/
  | readAll
  /-- `json.NewDecoder(resp.Body).Decode(&hits)`: the response body is read and decoded. -/
  | decodeBody
  /-- `resp.Body.Close()`. -/
  | closeBody
  deriving DecidableEq, Repr

/-- What a call did and what it returned. -/
structure Outcome (α : Type) where
  trace : List Event
  result : Except Err α

/-- The requests handed to the transport, in order. -/
def sentRequests : List Event → List Request
  | [] => []
  | .send req :: es => req :: sentRequests es
  | _ :: es => sentRequests es

/-! ## The client (`client.go`) -/

def endpointGetAll : String := "/api/v1/cache/get_all"
def endpointPutAll : String := "/api/v1/cache/put_all"
def endpointEvictAll : String := "/api/v1/cache/evict_all"

/-- One second as a `time.Duration` (nanoseconds). -/
def second : Int := 1000000000

structure Client where
  baseURL : String
  httpClient : Transport
  gzipThreshold : Int
  getTimeout : Int
  putTimeout : Int
  evictTimeout : Int

def NewWithOptions (env : Env) (baseURL : String) (gzipThreshold : Int)
    (getTimeout putTimeout evictTimeout : Int) (httpClient : Option Transport) : Client :=
  let baseURL := if hasSuffixSlash baseURL then trimSuffixSlash baseURL else baseURL
  let httpClient := match httpClient with
    | none => env.defaultClient
    | some t => t
  { baseURL := baseURL
    httpClient := httpClient
    gzipThreshold := gzipThreshold
    getTimeout := getTimeout
    putTimeout := putTimeout
    evictTimeout := evictTimeout }

def NewWithThreshold (env : Env) (baseURL : String) (gzipThreshold : Int) : Client :=
  NewWithOptions env baseURL gzipThreshold (5 * second) (5 * second) (5 * second)
    (some env.defaultClient)

def New (env : Env) (baseURL : String) : Client :=
  NewWithThreshold env baseURL 0

/-- The request URL: base URL followed by the endpoint. -/
def requestURL (c : Client) (endpoint : String) : String := c.baseURL ++ endpoint

/-- The second half of `sendRequest` (from `httpClient.Do` on): the request is handed to the
HTTP client and the response is classified. The deferred `cancel()` runs on every return. -/
def exchange (c : Client) (timeout : Int) (req : Request) : Outcome Response :=
  match c.httpClient req with
  | .error msg => ⟨[.withTimeout timeout, .send req, .cancel], .error (.transport msg)⟩
  | .ok resp =>
    if resp.statusCode ≠ 200 ∧ resp.statusCode ≠ 204 then
      ⟨[.withTimeout timeout, .send req, .readAll, .closeBody, .cancel],
        .error (.errorf (unexpectedResponse resp.statusCode (TrimSpace resp.body)))⟩
    else
      ⟨[.withTimeout timeout, .send req, .cancel], .ok resp⟩

def sendRequest (env : Env) (c : Client) (endpoint : String) (timeout : Int) (body : Bytes) :
    Outcome Response :=
  let url := requestURL c endpoint
  if env.validURL url = false then
    ⟨[.withTimeout timeout, .cancel], .error .newRequest⟩
  else
    let header := Header.set [] "Content-Type" "application/json"
    let prepared : Option (Header × Bytes) :=
      if 0 < c.gzipThreshold ∧ c.gzipThreshold ≤ (body.length : Int) then
        match env.gzip body with
        | none => none
        | some buf => some (Header.set header "Content-Encoding" "gzip", buf)
      else some (header, body)
    match prepared with
    | none => ⟨[.withTimeout timeout, .cancel], .error .gzip⟩
    | some (header, payload) =>
      exchange c timeout
        { method := "POST", url := url, header := header, body := payload,
          contentLength := payload.length }

/-- The text a reader of `resp.Body` gets after the context of the request has been
cancelled: what has arrived of the body by then. -/
def bodyText (env : Env) (resp : Response) : List Char :=
  match env.arrived resp with
  | none => resp.body.data
  | some n => resp.body.data.take n

/-- How that stream ends: at the end of the body if all of it has arrived, with the error
`context canceled` otherwise. -/
def bodyEnding (env : Env) (resp : Response) : Ending :=
  match env.arrived resp with
  | none => .eof
  | some _ => .canceled

def GetAll {T : Type} (env : Env) (codec : Codec T) (c : Client) (ids : Slice CacheId) :
    Outcome (Slice (CacheEntryHit T)) :=
  let body := utf8 (marshalIds ids)
  let sent := sendRequest env c endpointGetAll c.getTimeout body
  match sent.result with
  | .error err => ⟨sent.trace, .error err⟩
  | .ok resp =>
    match Decode codec (bodyText env resp) (bodyEnding env resp) with
    | .error err => ⟨sent.trace ++ [.decodeBody, .closeBody], .error (.decode err)⟩
    | .ok hits => ⟨sent.trace ++ [.decodeBody, .closeBody], .ok hits⟩

def PutAll {T : Type} (env : Env) (codec : Codec T) (c : Client)
    (entries : Slice (CacheEntry T)) : Outcome Unit :=
  match marshalEntries codec entries with
  | none => ⟨[], .error .marshal⟩
  | some text =>
    let sent := sendRequest env c endpointPutAll c.putTimeout (utf8 text)
    match sent.result with
    | .error err => ⟨sent.trace, .error err⟩
    | .ok _ => ⟨sent.trace ++ [.closeBody], .ok ()⟩

def EvictAll (env : Env) (c : Client) (ids : Slice CacheId) : Outcome Unit :=
  let body := utf8 (marshalIds ids)
  let sent := sendRequest env c endpointEvictAll c.evictTimeout body
  match sent.result with
  | .error err => ⟨sent.trace, .error err⟩
  | .ok _ => ⟨sent.trace ++ [.closeBody], .ok ()⟩

/-! ## Auxiliary notions for the statements -/

deriving instance DecidableEq for Except

/-- Continues the scanner after a step. -/
def resume (s : Step) (cs : List Char) : Scan :=
  match s with
  | .next stack mode => run stack mode cs
  | .done v back => .value v (back ++ cs)
  | .fail => .syntaxError

/-- The scanner state after the first character of a number literal. -/
def startNum (c : Char) : Option NumState :=
  if c = '-' then some .neg else if c = '0' then some .zero
  else if isDigit c then some .int else none

/-- Whether the characters continue a number literal up to an accepting state. -/
def numAccepts (ns : NumState) : List Char → Bool
  | [] => ns.accepting
  | c :: cs =>
    match numStep ns c with
    | some ns1 => numAccepts ns1 cs
    | none => false

/-- A JSON number literal. -/
def validNumber (lit : List Char) : Bool :=
  match lit with
  | [] => false
  | c :: cs =>
    match startNum c with
    | some ns => numAccepts ns cs
    | none => false

mutual
/-- The value is well formed (its number literals are JSON numbers) and its arrays and objects
nest at most `n` deep. -/
def Json.fits : Nat → Json → Bool
  | _, .null => true
  | _, .bool _ => true
  | _, .num lit => validNumber lit.data
  | _, .str _ => true
  | 0, .arr _ => false
  | n + 1, .arr xs => Json.fitsElems n xs
  | 0, .obj _ => false
  | n + 1, .obj kvs => Json.fitsMembers n kvs
def Json.fitsElems : Nat → List Json → Bool
  | _, [] => true
  | n, x :: xs => Json.fits n x && Json.fitsElems n xs
def Json.fitsMembers : Nat → List (String × Json) → Bool
  | _, [] => true
  | n, (_, v) :: kvs => Json.fits n v && Json.fitsMembers n kvs
end

/-- A value of `T` is JSON-representable: it encodes to a well-formed JSON value that the
decoder accepts inside a result object, and decoding that value into a zero `T` gives the
value back. -/
def Representable {T : Type} (codec : Codec T) (v : T) : Prop :=
  ∃ j, codec.marshal v = some j ∧ Json.fits (maxNestingDepth - 2) j = true ∧
    codec.unmarshal j codec.zero = some v

/-- The frame after a value has been stored in it. -/
def fill (f : Frame) (v : Json) : Frame :=
  match f with
  | .arr acc => .arr (v :: acc)
  | .val acc k => .key ((k, v) :: acc)
  | .key acc => .key acc

/-- Frames that wait for a value. -/
def Frame.awaitsValue : Frame → Bool
  | .arr _ => true
  | .val _ _ => true
  | .key _ => false

/-- The characters that follow a value inside an array or object. -/
def isDelim (c : Char) : Bool := c = ',' ∨ c = ']' ∨ c = '}'

/-- The scanner reads back the encoder's text of `j` wherever a value is awaited: in front of
a delimiter, with room for the nesting of `j`, it stores `j` in the waiting frame. -/
def ScansBack (j : Json) : Prop :=
  ∀ (n : Nat) (f : Frame) (stack : List Frame) (d : Char) (rest : List Char),
    f.awaitsValue = true → isDelim d = true → Json.fits n j = true →
    (f :: stack).length + n ≤ maxNestingDepth →
    run (f :: stack) .beginValue (render j ++ d :: rest)
      = run (fill f j :: stack) .endValue (d :: rest)

/-- The request `sendRequest` builds for the payload `b` and hands to the HTTP client; `none`
when the payload is to be compressed and the gzip writer fails. -/
def wireRequest (env : Env) (c : Client) (endpoint : String) (b : Bytes) : Option Request :=
  if 0 < c.gzipThreshold ∧ c.gzipThreshold ≤ (b.length : Int) then
    (env.gzip b).map fun z =>
      { method := "POST", url := requestURL c endpoint,
        header := Header.set (Header.set [] "Content-Type" "application/json")
          "Content-Encoding" "gzip",
        body := z, contentLength := z.length }
  else
    some { method := "POST", url := requestURL c endpoint,
           header := Header.set [] "Content-Type" "application/json",
           body := b, contentLength := b.length }

/-- The call of `sendRequest` for `endpoint` with payload `b` gets the response `resp`: the
URL of this endpoint is accepted, the request for this payload can be built, and the HTTP
client answers this request with `resp`. -/
def Received (env : Env) (c : Client) (endpoint : String) (b : Bytes) (resp : Response) :
    Prop :=
  env.validURL (requestURL c endpoint) = true ∧
  ∃ req, wireRequest env c endpoint b = some req ∧ c.httpClient req = .ok resp

/-- A sample environment: every URL is accepted, the compressor puts the two gzip magic bytes
in front of its input, there is no network behind the default client, and response bodies
have arrived in full by the time they are read (a service that writes a short body at once,
as the test servers do). -/
def demoEnv : Env where
  validURL := fun _ => true
  gzip := fun b => some (0x1f :: 0x8b :: b)
  defaultClient := fun _ => .error "no network"
  arrived := fun _ => none

/-- The sample environment with a service that sends the response header at once and the body
later: no part of a body has arrived when `sendRequest` returns. -/
def lateEnv : Env where
  validURL := fun _ => true
  gzip := fun b => some (0x1f :: 0x8b :: b)
  defaultClient := fun _ => .error "no network"
  arrived := fun _ => some 0

/-- A service that answers every request with `resp`. -/
def answer (resp : Response) : Transport := fun _ => .ok resp

/-- A client for the sample environment, with compression off. -/
def demoClient (resp : Response) : Client :=
  NewWithOptions demoEnv "http://cache/" 0 (5 * second) (5 * second) (5 * second)
    (some (answer resp))

/-- A client for the sample environment that compresses payloads of `t` bytes or more. -/
def gzipClient (t : Int) (resp : Response) : Client :=
  NewWithOptions demoEnv "http://cache" t (5 * second) (5 * second) (5 * second)
    (some (answer resp))

/-- A text of white space only (the empty text included). -/
def Blank (text : List Char) : Prop := ∀ c ∈ text, isJsonSpace c = true

/-- The characters a JSON value can begin with. -/
def startsValue (c : Char) : Bool :=
  c = '\x7b' ∨ c = '[' ∨ c = '"' ∨ c = '-' ∨ isDigit c ∨ c = 't' ∨ c = 'f' ∨ c = 'n'

/-- The inside of a JSON string literal: characters other than the quote, the backslash and
the control characters, two-character escapes, and `\u` with four hexadecimal digits. -/
inductive StrBody : List Char → Prop
  | nil : StrBody []
  | plain (r : List Char) (c : Char) :
    StrBody r → c ≠ '"' → c ≠ '\\' → ¬ c.toNat < 0x20 → StrBody (r ++ [c])
  | esc (r : List Char) (e : Char) :
    StrBody r → (e = 'b' ∨ e = 'f' ∨ e = 'n' ∨ e = 'r' ∨ e = 't' ∨ e = '\\' ∨ e = '/' ∨ e = '"') →
    StrBody (r ++ ['\\', e])
  | uni (r : List Char) (a b c d : Char) :
    StrBody r → isHex a = true → isHex b = true → isHex c = true → isHex d = true →
    StrBody (r ++ ['\\', 'u', a, b, c, d])

mutual
/-- `Spells v t`: the text `t` is a JSON text (RFC 8259) of the value `v`, with no white
space in front of it or after it. -/
inductive Spells : Json → List Char → Prop
  | null : Spells .null "null".data
  | tt : Spells (.bool true) "true".data
  | ff : Spells (.bool false) "false".data
  | num (lit : String) : validNumber lit.data = true → Spells (.num lit) lit.data
  | str (raw : List Char) :
    StrBody raw → Spells (.str (String.mk (unquote raw))) ('"' :: raw ++ ['"'])
  | arr0 (ws : List Char) : Blank ws → Spells (.arr []) ('[' :: ws ++ [']'])
  | arr (acc : List Json) (t ws : List Char) :
    Elems acc t → Blank ws → Spells (.arr acc.reverse) ('[' :: t ++ ws ++ [']'])
  | obj0 (ws : List Char) : Blank ws → Spells (.obj []) ('{' :: ws ++ ['}'])
  | obj (acc : List (String × Json)) (t ws : List Char) :
    Members acc t → Blank ws → Spells (.obj acc.reverse) ('{' :: t ++ ws ++ ['}'])
/-- `Elems acc t`: the text `t` holds the array elements `acc` (the last one first in `acc`),
separated by commas, with optional white space around them but not after the last one. -/
inductive Elems : List Json → List Char → Prop
  | one (ws t : List Char) (x : Json) : Blank ws → Spells x t → Elems [x] (ws ++ t)
  | more (acc : List Json) (t0 w0 w1 t : List Char) (x : Json) :
    Elems acc t0 → Blank w0 → Blank w1 → Spells x t →
    Elems (x :: acc) (t0 ++ w0 ++ ',' :: w1 ++ t)
/-- `Members acc t`: the text `t` holds the object members `acc` (the last one first in
`acc`), each a string literal, a colon and a value, separated by commas, with optional white
space around them but not after the last one. -/
inductive Members : List (String × Json) → List Char → Prop
  | one (w0 raw w1 w2 t : List Char) (x : Json) :
    Blank w0 → StrBody raw → Blank w1 → Blank w2 → Spells x t →
    Members [(String.mk (unquote raw), x)] (w0 ++ '"' :: raw ++ '"' :: w1 ++ ':' :: w2 ++ t)
  | more (acc : List (String × Json)) (t0 w w0 raw w1 w2 t : List Char) (x : Json) :
    Members acc t0 → Blank w → Blank w0 → StrBody raw → Blank w1 → Blank w2 → Spells x t →
    Members ((String.mk (unquote raw), x) :: acc)
      (t0 ++ w ++ ',' :: w0 ++ '"' :: raw ++ '"' :: w1 ++ ':' :: w2 ++ t)
end

/-- The text starts, after optional white space, with a complete JSON text of some value. -/
def StartsWithValue (text : List Char) : Prop :=
  ∃ v ws t rest, Blank ws ∧ Spells v t ∧ text = ws ++ t ++ rest

/-- The last string the members of an object give for a field, starting from `s`: the
decoder stores every member in turn, and `null` stores nothing. -/
def lastString (fld : Field) (s : String) : List (String × Json) → String
  | [] => s
  | m :: ms =>
    if fieldOf m.1 = some fld then
      match m.2 with
      | .str t => lastString fld t ms
      | _ => lastString fld s ms
    else lastString fld s ms

/-- The members of a result object for a key that was not found: every member for `f` is
`false` (or `null`), every member for `v` holds a value that decodes to the zero value, and
the members for `c` and `k` are strings (or `null`). Members may come in any order, may be
absent, and other members may be present. -/
def NotFoundMembers {T : Type} (codec : Codec T) (kvs : List (String × Json)) : Prop :=
  ∀ m ∈ kvs,
    match fieldOf m.1 with
    | none => True
    | some .f => m.2 = .bool false ∨ m.2 = .null
    | some .v => codec.unmarshal m.2 codec.zero = some codec.zero
    | some _ => (∃ s, m.2 = .str s) ∨ m.2 = .null

/-! ### The scanner against the grammar -/

/-- The outcome of a number literal read so far. -/
def numRun (ns : NumState) (cs : List Char) : Option NumState :=
  cs.foldl (fun o c => o.bind fun s => numStep s c) (some ns)

/-- The characters read so far form the beginning of a number literal and lead to `ns`. -/
def NumReach (ns : NumState) (text : List Char) : Prop :=
  ∃ c cs ns0, text = c :: cs ∧ startNum c = some ns0 ∧ numRun ns0 cs = some ns

/-- Inside an array after its opening bracket: the elements `acc` have been read and the
next element is awaited. -/
def ArrAwait (acc : List Json) (t : List Char) : Prop :=
  (acc = [] ∧ Blank t) ∨
  ∃ t0 w0 w1, Elems acc t0 ∧ Blank w0 ∧ Blank w1 ∧ t = t0 ++ w0 ++ ',' :: w1

/-- Inside an array after its opening bracket: the elements `acc` have been read. -/
def ArrDone (acc : List Json) (t : List Char) : Prop :=
  ∃ t0 w0, Elems acc t0 ∧ Blank w0 ∧ t = t0 ++ w0

/-- Inside an object after its opening brace: the members `acc` have been read and the next
key is awaited. -/
def KeyAwait (acc : List (String × Json)) (t : List Char) : Prop :=
  (acc = [] ∧ Blank t) ∨
  ∃ t0 w0 w1, Members acc t0 ∧ Blank w0 ∧ Blank w1 ∧ t = t0 ++ w0 ++ ',' :: w1

/-- Inside an object: the key `k` of the next member has been read. -/
def KeyDone (acc : List (String × Json)) (k : String) (t : List Char) : Prop :=
  ∃ t1 raw w1, KeyAwait acc t1 ∧ StrBody raw ∧ k = String.mk (unquote raw) ∧ Blank w1 ∧
    t = t1 ++ '"' :: raw ++ '"' :: w1

/-- Inside an object: the key `k` and the colon have been read, the value is awaited. -/
def ValAwait (acc : List (String × Json)) (k : String) (t : List Char) : Prop :=
  ∃ t1 w2, KeyDone acc k t1 ∧ Blank w2 ∧ t = t1 ++ ':' :: w2

/-- Inside an object after its opening brace: the members `acc` have been read. -/
def ObjDone (acc : List (String × Json)) (t : List Char) : Prop :=
  ∃ t0 w0, Members acc t0 ∧ Blank w0 ∧ t = t0 ++ w0

/-- The text read so far leaves the scanner with this stack at a place where a value is
awaited. -/
def Awaiting : List Frame → List Char → Prop
  | [], pre => Blank pre
  | .arr acc :: stack, pre => ∃ p t, Awaiting stack p ∧ ArrAwait acc t ∧ pre = p ++ '[' :: t
  | .val acc k :: stack, pre =>
    ∃ p t, Awaiting stack p ∧ ValAwait acc k t ∧ pre = p ++ '{' :: t
  | .key _ :: _, _ => False

/-- The text read so far leaves the scanner with this stack at a place where an object key is
awaited. -/
def AwaitingKey : List Frame → List Char → Prop
  | .key acc :: stack, pre => ∃ p t, Awaiting stack p ∧ KeyAwait acc t ∧ pre = p ++ '{' :: t
  | _, _ => False

/-- The text read so far leaves the scanner with this stack right after an element, a member
or a key. -/
def Ended : List Frame → List Char → Prop
  | [], _ => False
  | .arr acc :: stack, pre => ∃ p t, Awaiting stack p ∧ ArrDone acc t ∧ pre = p ++ '[' :: t
  | .key acc :: stack, pre => ∃ p t, Awaiting stack p ∧ ObjDone acc t ∧ pre = p ++ '{' :: t
  | .val acc k :: stack, pre =>
    ∃ p t, Awaiting stack p ∧ KeyDone acc k t ∧ pre = p ++ '{' :: t

/-- What the text read so far is, for each state of the scanner. -/
def Inv (stack : List Frame) (mode : Mode) (pre : List Char) : Prop :=
  match mode with
  | .beginValue => Awaiting stack pre
  | .beginValueOrEmpty =>
    ∃ rest p ws, stack = .arr [] :: rest ∧ Awaiting rest p ∧ Blank ws ∧ pre = p ++ '[' :: ws
  | .beginStringOrEmpty =>
    ∃ rest p ws, stack = .key [] :: rest ∧ Awaiting rest p ∧ Blank ws ∧ pre = p ++ '{' :: ws
  | .beginString => AwaitingKey stack pre
  | .endValue => Ended stack pre
  | .inString raw =>
    ∃ p, (Awaiting stack p ∨ AwaitingKey stack p) ∧ StrBody raw.reverse ∧
      pre = p ++ '"' :: raw.reverse
  | .inStringEsc raw =>
    ∃ p r, (Awaiting stack p ∨ AwaitingKey stack p) ∧ StrBody r.reverse ∧ raw = '\\' :: r ∧
      pre = p ++ '"' :: raw.reverse
  | .inStringEscU raw seen =>
    ∃ p r hs, (Awaiting stack p ∨ AwaitingKey stack p) ∧ StrBody r.reverse ∧
      raw = hs ++ 'u' :: '\\' :: r ∧ hs.length = seen ∧ seen ≤ 3 ∧
      (∀ h ∈ hs, isHex h = true) ∧
      pre = p ++ '"' :: raw.reverse
  | .number ns raw => ∃ p, Awaiting stack p ∧ NumReach ns raw.reverse ∧ pre = p ++ raw.reverse
  | .literal todo v =>
    ∃ p seen, Awaiting stack p ∧ Spells v (seen ++ todo) ∧ pre = p ++ seen
  | .endTop v => stack = [] ∧ ∃ ws t, Blank ws ∧ Spells v t ∧ pre = ws ++ t

/-- What a step of the scanner has reached when `text` has been read: a state that fits the
text, or a value whose JSON text, after white space, is the text read (less the character
handed back, if any). -/
def Reached (text : List Char) (r : Step) : Prop :=
  match r with
  | .next stack mode => Inv stack mode text
  | .done v back => ∃ ws t, Blank ws ∧ Spells v t ∧ text = ws ++ t ++ back
  | .fail => True

/-! ## Characters -/

theorem toNat_inj (c d : Char) : c = d ↔ c.toNat = d.toNat := by
  constructor
  · rintro rfl; rfl
  · intro h
    apply Char.ext
    simp [Char.toNat] at h
    exact UInt32.ext (by simpa [UInt32.toNat] using h)

theorem le_iff_toNat (c d : Char) : c ≤ d ↔ c.toNat ≤ d.toNat := by
  rw [Char.le_def]; rfl

theorem toNat_ofNat_small (n : Nat) (h : n < 0xd800) : (Char.ofNat n).toNat = n := by
  have hv : n.isValidChar := Or.inl h
  simp only [Char.ofNat, hv, Char.ofNatAux, Char.toNat, dite_true]
  rfl

theorem hexVal_hexDigit : ∀ n, n < 16 → hexVal (hexDigit n) = n := by decide

theorem isHex_hexDigit : ∀ n, n < 16 → isHex (hexDigit n) = true := by decide

theorem run_cons (stack : List Frame) (mode : Mode) (c : Char) (cs : List Char) :
    run stack mode (c :: cs) = resume (step stack mode c) cs := by
  simp only [run, resume]

/-! ## String literals: scanning and unquoting what the encoder wrote -/

theorem run_inString_escU (stack : List Frame) (acc : List Char) (a b c d : Char)
    (tail : List Char) (ha : isHex a = true) (hb : isHex b = true) (hc : isHex c = true)
    (hd : isHex d = true) :
    run stack (.inString acc) ('\\' :: 'u' :: a :: b :: c :: d :: tail)
      = run stack (.inString (d :: c :: b :: a :: 'u' :: '\\' :: acc)) tail := by
  simp [run_cons, step, resume, ha, hb, hc, hd]

theorem run_inString_plain (stack : List Frame) (acc : List Char) (c : Char)
    (tail : List Char) (h1 : c ≠ '"') (h2 : c ≠ '\\') (h3 : ¬ c.toNat < 0x20) :
    run stack (.inString acc) (c :: tail) = run stack (.inString (c :: acc)) tail := by
  simp [run_cons, step, resume, h1, h2, h3]

theorem run_inString_quoteChar (stack : List Frame) (acc : List Char) (c : Char)
    (tail : List Char) :
    run stack (.inString acc) (quoteChar c ++ tail)
      = run stack (.inString ((quoteChar c).reverse ++ acc)) tail := by
  unfold quoteChar
  split_ifs with h1 h2 h3 h4 h5 h6 h7 h8 h9
  · subst h1; simp [run_cons, step, resume]
  · subst h2; simp [run_cons, step, resume]
  · subst h3; simp [run_cons, step, resume]
  · subst h4; simp [run_cons, step, resume]
  · subst h5; simp [run_cons, step, resume]
  · subst h6; simp [run_cons, step, resume]
  · subst h7; simp [run_cons, step, resume]
  · have hhi : c.toNat / 16 < 16 := by
      rcases h8 with h | h | h | h
      · omega
      all_goals (subst h; decide)
    have hlo : c.toNat % 16 < 16 := Nat.mod_lt _ (by decide)
    simpa using run_inString_escU stack acc '0' '0' _ _ tail (by decide) (by decide)
      (isHex_hexDigit _ hhi) (isHex_hexDigit _ hlo)
  · have hlo : c.toNat % 16 < 16 := Nat.mod_lt _ (by decide)
    simpa using run_inString_escU stack acc '2' '0' '2' _ tail (by decide) (by decide)
      (by decide) (isHex_hexDigit _ hlo)
  · have h3 : ¬ c.toNat < 0x20 := fun h => h8 (Or.inl h)
    simpa using run_inString_plain stack acc c tail h1 h2 h3

theorem run_inString_quoteBody (stack : List Frame) (s : List Char) :
    ∀ (acc tail : List Char),
      run stack (.inString acc) (quoteBody s ++ tail)
        = run stack (.inString ((quoteBody s).reverse ++ acc)) tail := by
  induction s with
  | nil => intro acc tail; rfl
  | cons c s ih =>
    intro acc tail
    simp only [quoteBody, List.append_assoc, List.reverse_append]
    rw [run_inString_quoteChar, ih]

theorem unquoteFrom_plain (c : Char) (tail : List Char) (h : c ≠ '\\') :
    unquoteFrom 0 (c :: tail) = c :: unquoteFrom 0 tail := by
  rw [unquoteFrom.eq_def]
  simp [h]
theorem unquoteFrom_esc (e : Char) (tail : List Char) (h : e ≠ 'u') :
    unquoteFrom 0 ('\\' :: e :: tail) = unescape e :: unquoteFrom 0 tail := by
  rw [unquoteFrom.eq_def]
  simp [h]
theorem unquoteFrom_u (a b c d : Char) (tail : List Char)
    (h : ¬ (0xd800 ≤ ((hexVal a * 16 + hexVal b) * 16 + hexVal c) * 16 + hexVal d ∧
      ((hexVal a * 16 + hexVal b) * 16 + hexVal c) * 16 + hexVal d < 0xe000)) :
    unquoteFrom 0 ('\\' :: 'u' :: a :: b :: c :: d :: tail)
      = Char.ofNat (((hexVal a * 16 + hexVal b) * 16 + hexVal c) * 16 + hexVal d)
          :: unquoteFrom 0 tail := by
  rw [unquoteFrom.eq_def]
  simp only [if_true]
  rw [if_neg h]
theorem unquoteFrom_quoteChar (c : Char) (tail : List Char) :
    unquoteFrom 0 (quoteChar c ++ tail) = c :: unquoteFrom 0 tail := by
  unfold quoteChar
  split_ifs with h1 h2 h3 h4 h5 h6 h7 h8 h9
  · subst h1; exact unquoteFrom_esc _ _ (by decide)
  · subst h2; exact unquoteFrom_esc _ _ (by decide)
  · subst h3; exact unquoteFrom_esc _ _ (by decide)
  · subst h4; exact unquoteFrom_esc _ _ (by decide)
  · subst h5; exact unquoteFrom_esc _ _ (by decide)
  · subst h6; exact unquoteFrom_esc _ _ (by decide)
  · subst h7; exact unquoteFrom_esc _ _ (by decide)
  · have hsmall : c.toNat < 64 := by
      rcases h8 with h | h | h | h
      · omega
      all_goals (subst h; decide)
    have hhi : c.toNat / 16 < 16 := by omega
    have hlo : c.toNat % 16 < 16 := Nat.mod_lt _ (by decide)
    have h0 : hexVal '0' = 0 := by decide
    have hval : ((hexVal '0' * 16 + hexVal '0') * 16 + hexVal (hexDigit (c.toNat / 16))) * 16
        + hexVal (hexDigit (c.toNat % 16)) = c.toNat := by
      rw [h0, hexVal_hexDigit _ hhi, hexVal_hexDigit _ hlo]; omega
    have := unquoteFrom_u '0' '0' (hexDigit (c.toNat / 16)) (hexDigit (c.toNat % 16)) tail
      (by rw [hval]; omega)
    rw [hval, Char.ofNat_toNat] at this
    exact this
  · have hlo : c.toNat % 16 < 16 := Nat.mod_lt _ (by decide)
    have h0 : hexVal '0' = 0 := by decide
    have h2 : hexVal '2' = 2 := by decide
    have hval : ((hexVal '2' * 16 + hexVal '0') * 16 + hexVal '2') * 16
        + hexVal (hexDigit (c.toNat % 16)) = c.toNat := by
      rw [h0, h2, hexVal_hexDigit _ hlo]; omega
    have := unquoteFrom_u '2' '0' '2' (hexDigit (c.toNat % 16)) tail
      (by rw [hval]; omega)
    rw [hval, Char.ofNat_toNat] at this
    exact this
  · exact unquoteFrom_plain c tail h2

theorem unquote_quoteBody (s : List Char) : unquote (quoteBody s) = s := by
  unfold unquote
  induction s with
  | nil => rfl
  | cons c s ih => simp only [quoteBody]; rw [unquoteFrom_quoteChar, ih]

/-- Scanning a string literal written by the encoder delivers the string. -/
theorem run_quote (stack : List Frame) (s : String) (tail : List Char) :
    run stack (.inString []) (quoteBody s.data ++ '"' :: tail)
      = resume (deliverToken (.str s) stack) tail := by
  rw [run_inString_quoteBody, run_cons]
  simp [step, unquote_quoteBody]

/-! ## Number literals and keywords -/

theorem resume_next (stack : List Frame) (mode : Mode) (cs : List Char) :
    resume (.next stack mode) cs = run stack mode cs := rfl

theorem resume_done (v : Json) (back cs : List Char) :
    resume (.done v back) cs = .value v (back ++ cs) := rfl

theorem deliverToken_awaits (f : Frame) (stack : List Frame) (v : Json)
    (hf : f.awaitsValue = true) :
    deliverToken v (f :: stack) = .next (fill f v :: stack) .endValue := by
  cases f <;> simp_all [Frame.awaitsValue, deliverToken, deliver, fill]

theorem deliver_awaits (f : Frame) (stack : List Frame) (v : Json) (hf : f.awaitsValue = true) :
    deliver v (f :: stack) = .next (fill f v :: stack) .endValue := by
  cases f <;> simp_all [Frame.awaitsValue, deliver, fill]

theorem numStep_delim (ns : NumState) (d : Char) (hd : isDelim d = true) : numStep ns d = none := by
  simp only [isDelim, Bool.decide_or, Bool.or_eq_true, decide_eq_true_eq] at hd
  rcases hd with rfl | rfl | rfl <;> cases ns <;> decide


theorem run_number_tail (stack : List Frame) (d : Char) (rest : List Char)
    (hd : isDelim d = true) (cs : List Char) :
    ∀ (ns : NumState) (raw : List Char), numAccepts ns cs = true →
      run stack (.number ns raw) (cs ++ d :: rest)
        = resume (deliverNumber (.num (String.mk (cs.reverse ++ raw).reverse)) stack d)
            rest := by
  induction cs with
  | nil =>
    intro ns raw h
    simp only [numAccepts] at h
    simp [run_cons, step, numStep_delim ns d hd, h]
  | cons c cs ih =>
    intro ns raw h
    simp only [numAccepts] at h
    cases hstep : numStep ns c with
    | none => simp [hstep] at h
    | some ns1 =>
      simp only [hstep] at h
      simp only [List.cons_append, run_cons, step, hstep, resume_next]
      rw [ih ns1 (c :: raw) h]
      simp

theorem stepBeginValue_startNum (stack : List Frame) (c : Char) (ns : NumState)
    (h : startNum c = some ns) : stepBeginValue stack c = .next stack (.number ns [c]) := by
  unfold startNum at h
  split_ifs at h with h1 h2 h3
  · subst h1; cases h; simp [stepBeginValue, isJsonSpace]
  · subst h2; cases h; simp [stepBeginValue, isJsonSpace]
  · cases h
    have hd : 48 ≤ c.toNat ∧ c.toNat ≤ 57 := by
      simpa [isDigit, le_iff_toNat] using h3
    have hne : ∀ d : Char, d.toNat < 48 ∨ 57 < d.toNat → c ≠ d := by
      intro d hdd hcd; subst hcd; omega
    simp [stepBeginValue, isJsonSpace, h3, h1, h2, hne ' ' (by decide), hne '\t' (by decide),
      hne '\r' (by decide), hne '\n' (by decide), hne '{' (by decide), hne '[' (by decide),
      hne '"' (by decide), hne 't' (by decide), hne 'f' (by decide), hne 'n' (by decide)]

/-- A number literal followed by a delimiter, inside an array or object. -/
theorem run_number (f : Frame) (stack : List Frame) (lit : String) (d : Char)
    (rest : List Char) (hf : f.awaitsValue = true) (hv : validNumber lit.data = true)
    (hd : isDelim d = true) :
    run (f :: stack) .beginValue (lit.data ++ d :: rest)
      = run (fill f (.num lit) :: stack) .endValue (d :: rest) := by
  cases hl : lit.data with
  | nil => simp [validNumber, hl] at hv
  | cons c cs =>
    rw [hl] at hv
    simp only [validNumber] at hv
    cases hs : startNum c with
    | none => simp [hs] at hv
    | some ns =>
      simp only [hs] at hv
      have hlit : String.mk (c :: cs) = lit := by rw [← hl]
      simp only [List.cons_append, run_cons, step, stepBeginValue_startNum _ c ns hs,
        resume_next]
      rw [run_number_tail _ d rest hd cs ns [c] hv]
      simp [deliverNumber, deliver_awaits f stack _ hf, hlit, run_cons, step]

theorem render_null (rest : List Char) :
    render .null ++ rest = 'n' :: ("ull".data ++ rest) := by
  have h : render .null = 'n' :: "ull".data := by decide
  rw [h]; rfl

theorem render_true (rest : List Char) :
    render (.bool true) ++ rest = 't' :: ("rue".data ++ rest) := by
  have h : render (.bool true) = 't' :: "rue".data := by decide
  rw [h]; rfl

theorem render_false (rest : List Char) :
    render (.bool false) ++ rest = 'f' :: ("alse".data ++ rest) := by
  have h : render (.bool false) = 'f' :: "alse".data := by decide
  rw [h]; rfl

theorem run_null (stack : List Frame) (rest : List Char) :
    run stack .beginValue ('n' :: ("ull".data ++ rest))
      = resume (deliverToken .null stack) rest := by
  have h : "ull".data = ['u', 'l', 'l'] := by decide
  simp [h, run_cons, step, stepBeginValue, isJsonSpace, resume_next]

theorem run_true (stack : List Frame) (rest : List Char) :
    run stack .beginValue ('t' :: ("rue".data ++ rest))
      = resume (deliverToken (.bool true) stack) rest := by
  have h : "rue".data = ['r', 'u', 'e'] := by decide
  simp [h, run_cons, step, stepBeginValue, isJsonSpace, resume_next]

theorem run_false (stack : List Frame) (rest : List Char) :
    run stack .beginValue ('f' :: ("alse".data ++ rest))
      = resume (deliverToken (.bool false) stack) rest := by
  have h : "alse".data = ['a', 'l', 's', 'e'] := by decide
  simp [h, run_cons, step, stepBeginValue, isJsonSpace, resume_next]

theorem run_string (stack : List Frame) (s : String) (rest : List Char) :
    run stack .beginValue (quote s ++ rest) = resume (deliverToken (.str s) stack) rest := by
  simp only [quote, List.cons_append, List.append_assoc, List.singleton_append, run_cons]
  simp only [step, stepBeginValue, isJsonSpace]
  simp [resume_next, run_quote]


/-! ## Arrays and objects: the scanner reads back what the encoder wrote -/

theorem step_orEmpty (stack : List Frame) (c : Char) (h1 : isJsonSpace c = false)
    (h2 : c ≠ ']') : step stack .beginValueOrEmpty c = step stack .beginValue c := by
  simp [step, h1, h2]

theorem render_head (n : Nat) (x : Json) (hx : Json.fits n x = true) :
    ∃ c cs, render x = c :: cs ∧ isJsonSpace c = false ∧ c ≠ ']' := by
  cases x with
  | null => exact ⟨'n', "ull".data, by decide, by decide, by decide⟩
  | bool b =>
    cases b
    · exact ⟨'f', "alse".data, by decide, by decide, by decide⟩
    · exact ⟨'t', "rue".data, by decide, by decide, by decide⟩
  | num lit =>
    have hv : validNumber lit.data = true := by
      cases n <;> simpa [Json.fits] using hx
    cases hl : lit.data with
    | nil => simp [validNumber, hl] at hv
    | cons c cs =>
      refine ⟨c, cs, by simp [render, hl], ?_, ?_⟩
      all_goals
        rw [hl] at hv
        simp only [validNumber, startNum] at hv
        split_ifs at hv with h1 h2 h3
        · subst h1; decide
        · subst h2; decide
        · have hd : 48 ≤ c.toNat ∧ c.toNat ≤ 57 := by simpa [isDigit, le_iff_toNat] using h3
          have hne : ∀ d : Char, d.toNat < 48 ∨ 57 < d.toNat → c ≠ d := by
            intro d hdd hcd; subst hcd; omega
          simp [isJsonSpace, hne ' ' (by decide), hne '\t' (by decide),
            hne '\r' (by decide), hne '\n' (by decide), hne ']' (by decide)]
  | str s => exact ⟨'"', _, rfl, by decide, by decide⟩
  | arr xs => exact ⟨'[', renderElems xs ++ [']'], by simp [render], by decide, by decide⟩
  | obj kvs => exact ⟨'{', renderMembers kvs ++ ['}'], by simp [render], by decide, by decide⟩

theorem run_orEmpty_render (stack : List Frame) (n : Nat) (x : Json)
    (hx : Json.fits n x = true) (r : List Char) :
    run stack .beginValueOrEmpty (render x ++ r) = run stack .beginValue (render x ++ r) := by
  obtain ⟨c, cs, hr, h1, h2⟩ := render_head n x hx
  rw [hr, List.cons_append, run_cons, run_cons, step_orEmpty stack c h1 h2]

theorem run_elems (n : Nat) (stack : List Frame) (rest : List Char) (xs : List Json) :
    ∀ (x : Json) (acc : List Json), (∀ y ∈ x :: xs, ScansBack y) →
      Json.fitsElems n (x :: xs) = true →
      (Frame.arr acc :: stack).length + n ≤ maxNestingDepth →
      run (.arr acc :: stack) .beginValue (renderElems (x :: xs) ++ ']' :: rest)
        = resume (deliver (.arr (acc.reverse ++ x :: xs)) stack) rest := by
  induction xs with
  | nil =>
    intro x acc hP hfit hlen
    have hx : Json.fits n x = true := by simpa [Json.fitsElems] using hfit
    rw [renderElems, hP x (by simp) n (.arr acc) stack ']' rest rfl (by decide) hx hlen]
    simp [run_cons, step, stepEndValue, isJsonSpace, fill]
  | cons y ys ih =>
    intro x acc hP hfit hlen
    have hx : Json.fits n x = true ∧ Json.fitsElems n (y :: ys) = true := by
      simpa [Json.fitsElems] using hfit
    rw [renderElems, List.append_assoc, List.cons_append,
      hP x (by simp) n (.arr acc) stack ',' _ rfl (by decide) hx.1 hlen]
    simp only [run_cons, step, stepEndValue, isJsonSpace, fill]
    simp only [resume_next, decide_eq_true_eq]
    have := ih y (x :: acc) (fun z hz => hP z (List.mem_cons_of_mem _ hz)) hx.2
      (by simpa using hlen)
    simpa using this

theorem run_key (acc : List (String × Json)) (stack : List Frame) (k : String)
    (tail : List Char) :
    run (.key acc :: stack) .beginString (quote k ++ ':' :: tail)
      = run (.val acc k :: stack) .beginValue tail := by
  simp only [quote, List.cons_append, List.append_assoc, List.singleton_append, run_cons]
  simp only [step, stepBeginString, isJsonSpace]
  simp [resume_next, run_quote, deliverToken, deliver, run_cons, step, stepEndValue,
    isJsonSpace]

theorem run_members (n : Nat) (stack : List Frame) (rest : List Char)
    (kvs : List (String × Json)) :
    ∀ (kv : String × Json) (acc : List (String × Json)), (∀ m ∈ kv :: kvs, ScansBack m.2) →
      Json.fitsMembers n (kv :: kvs) = true →
      (Frame.key acc :: stack).length + n ≤ maxNestingDepth →
      run (.key acc :: stack) .beginString (renderMembers (kv :: kvs) ++ '}' :: rest)
        = resume (deliver (.obj (acc.reverse ++ kv :: kvs)) stack) rest := by
  induction kvs with
  | nil =>
    intro kv acc hP hfit hlen
    obtain ⟨k, v⟩ := kv
    have hv : Json.fits n v = true := by simpa [Json.fitsMembers] using hfit
    rw [renderMembers, List.append_assoc, List.cons_append, run_key,
      hP (k, v) (by simp) n (.val acc k) stack '}' rest rfl (by decide) hv (by simpa using hlen)]
    simp [run_cons, step, stepEndValue, isJsonSpace, fill]
  | cons m ms ih =>
    intro kv acc hP hfit hlen
    obtain ⟨k, v⟩ := kv
    have hv : Json.fits n v = true ∧ Json.fitsMembers n (m :: ms) = true := by
      simpa [Json.fitsMembers] using hfit
    simp only [renderMembers, List.append_assoc, List.cons_append]
    rw [run_key,
      hP (k, v) (by simp) n (.val acc k) stack ',' _ rfl (by decide) hv.1 (by simpa using hlen)]
    simp only [run_cons, step, stepEndValue, isJsonSpace, fill]
    simp only [resume_next, decide_eq_true_eq]
    have := ih m ((k, v) :: acc) (fun z hz => hP z (List.mem_cons_of_mem _ hz)) hv.2
      (by simpa using hlen)
    simpa using this

theorem renderElems_cons (x : Json) (xs : List Json) :
    ∃ r, renderElems (x :: xs) = render x ++ r := by
  cases xs with
  | nil => exact ⟨[], by simp [renderElems]⟩
  | cons y ys => exact ⟨',' :: renderElems (y :: ys), by rw [renderElems]⟩

theorem step_close_arr (f : Frame) (stack : List Frame) (hf : f.awaitsValue = true) :
    step (.arr [] :: f :: stack) .beginValueOrEmpty ']'
      = .next (fill f (.arr []) :: stack) .endValue := by
  simp [step, isJsonSpace, stepEndValue, deliver_awaits f stack _ hf]

theorem step_close_obj (f : Frame) (stack : List Frame) (hf : f.awaitsValue = true) :
    step (.key [] :: f :: stack) .beginStringOrEmpty '}'
      = .next (fill f (.obj []) :: stack) .endValue := by
  simp [step, isJsonSpace, stepEndValue, deliver_awaits f stack _ hf]

theorem step_open_arr (stack : List Frame) (h : stack.length + 1 ≤ maxNestingDepth) :
    step stack .beginValue '[' = .next (.arr [] :: stack) .beginValueOrEmpty := by
  simp [step, stepBeginValue, isJsonSpace, push, h]

theorem step_open_obj (stack : List Frame) (h : stack.length + 1 ≤ maxNestingDepth) :
    step stack .beginValue '{' = .next (.key [] :: stack) .beginStringOrEmpty := by
  simp [step, stepBeginValue, isJsonSpace, push, h]

theorem scansBack_arr (xs : List Json) (hP : ∀ x ∈ xs, ScansBack x) : ScansBack (.arr xs) := by
  intro n f stack d rest hf hd hfit hlen
  cases n with
  | zero => simp [Json.fits] at hfit
  | succ n =>
    rw [Json.fits] at hfit
    have hroom : (f :: stack).length + 1 ≤ maxNestingDepth := by omega
    rw [render, List.append_assoc, List.cons_append, run_cons, step_open_arr _ hroom,
      resume_next]
    cases xs with
    | nil =>
      simp only [renderElems, List.nil_append, List.singleton_append]
      rw [run_cons, step_close_arr f stack hf, resume_next]
    | cons x xs =>
      have hx : Json.fits n x = true := by
        simp only [Json.fitsElems, Bool.and_eq_true] at hfit; exact hfit.1
      obtain ⟨r, hr⟩ := renderElems_cons x xs
      have h1 := run_orEmpty_render (.arr [] :: f :: stack) n x hx (r ++ ']' :: d :: rest)
      rw [← List.append_assoc, ← hr] at h1
      rw [List.singleton_append, h1,
        run_elems n (f :: stack) (d :: rest) xs x [] hP hfit (by simp at hlen ⊢; omega),
        deliver_awaits f stack _ hf, resume_next]
      rfl

theorem renderMembers_cons (k : String) (v : Json) (kvs : List (String × Json)) :
    ∃ r, renderMembers ((k, v) :: kvs) = '"' :: r := by
  cases kvs with
  | nil => exact ⟨_, by simp [renderMembers, quote]; rfl⟩
  | cons y ys => exact ⟨_, by simp [renderMembers, quote]; rfl⟩

theorem scansBack_obj (kvs : List (String × Json)) (hP : ∀ m ∈ kvs, ScansBack m.2) :
    ScansBack (.obj kvs) := by
  intro n f stack d rest hf hd hfit hlen
  cases n with
  | zero => simp [Json.fits] at hfit
  | succ n =>
    rw [Json.fits] at hfit
    have hroom : (f :: stack).length + 1 ≤ maxNestingDepth := by omega
    rw [render, List.append_assoc, List.cons_append, run_cons, step_open_obj _ hroom,
      resume_next]
    cases kvs with
    | nil =>
      simp only [renderMembers, List.nil_append, List.singleton_append]
      rw [run_cons, step_close_obj f stack hf, resume_next]
    | cons kv kvs =>
      obtain ⟨k, v⟩ := kv
      obtain ⟨r, hr⟩ := renderMembers_cons k v kvs
      have h1 : run (.key [] :: f :: stack) .beginStringOrEmpty
          (renderMembers ((k, v) :: kvs) ++ '}' :: d :: rest)
          = run (.key [] :: f :: stack) .beginString
          (renderMembers ((k, v) :: kvs) ++ '}' :: d :: rest) := by
        rw [hr, List.cons_append, run_cons, run_cons]
        simp [step, isJsonSpace]
      rw [List.singleton_append, h1,
        run_members n (f :: stack) (d :: rest) kvs (k, v) [] hP hfit (by simp at hlen ⊢; omega),
        deliver_awaits f stack _ hf, resume_next]
      rfl

/-- Every JSON value the encoder writes is read back by the scanner. -/
theorem scansBack (j : Json) : ScansBack j := by
  refine Json.rec (motive_1 := ScansBack) (motive_2 := fun xs => ∀ x ∈ xs, ScansBack x)
    (motive_3 := fun kvs => ∀ m ∈ kvs, ScansBack m.2) (motive_4 := fun m => ScansBack m.2)
    ?_ ?_ ?_ ?_ ?_ ?_ ?_ ?_ ?_ ?_ ?_ j
  · intro n f stack d rest hf hd _ _
    rw [render_null, run_null, deliverToken_awaits f stack _ hf, resume_next]
  · intro b n f stack d rest hf hd _ _
    cases b
    · rw [render_false, run_false, deliverToken_awaits f stack _ hf, resume_next]
    · rw [render_true, run_true, deliverToken_awaits f stack _ hf, resume_next]
  · intro lit n f stack d rest hf hd hfit _
    have hv : validNumber lit.data = true := by
      cases n <;> simpa [Json.fits] using hfit
    rw [render, run_number f stack lit d rest hf hv hd]
  · intro s n f stack d rest hf hd _ _
    rw [render, run_string, deliverToken_awaits f stack _ hf, resume_next]
  · exact scansBack_arr
  · exact scansBack_obj
  · intro x hx; simp at hx
  · intro x xs hx hxs y hy
    rcases List.mem_cons.1 hy with rfl | h
    · exact hx
    · exact hxs y h
  · intro x hx; simp at hx
  · intro m ms hm hms y hy
    rcases List.mem_cons.1 hy with rfl | h
    · exact hm
    · exact hms y h
  · intro k v hv; exact hv


/-! ## Reading back a whole document -/

theorem readValue_null (tail : List Char) :
    readValue (render .null ++ tail) .eof = .ok (.null, tail) := by
  rw [readValue, render_null, run_null]
  cases tail with
  | nil => rfl
  | cons c cs => rfl

/-- The scanner reads the encoding of an array to its closing bracket and leaves what
follows it. -/
theorem run_arr (xs : List Json) (tail : List Char)
    (hfit : Json.fitsElems (maxNestingDepth - 1) xs = true) :
    run [] .beginValue (render (.arr xs) ++ tail) = .value (.arr xs) tail := by
  rw [render, List.append_assoc, List.cons_append, run_cons,
    step_open_arr [] (by decide), resume_next]
  cases xs with
  | nil =>
    simp only [renderElems, List.nil_append, List.singleton_append]
    rw [run_cons]
    simp [step, isJsonSpace, stepEndValue, deliver, resume_done]
  | cons x xs =>
    have hx : Json.fits (maxNestingDepth - 1) x = true := by
      simp only [Json.fitsElems, Bool.and_eq_true] at hfit; exact hfit.1
    obtain ⟨r, hr⟩ := renderElems_cons x xs
    have h1 := run_orEmpty_render [.arr []] _ x hx (r ++ ']' :: tail)
    rw [← List.append_assoc, ← hr] at h1
    rw [List.singleton_append, h1,
      run_elems (maxNestingDepth - 1) [] tail xs x [] (fun y _ => scansBack y) hfit (by decide)]
    rfl

theorem readValue_arr (xs : List Json) (tail : List Char) (ending : Ending)
    (hfit : Json.fitsElems (maxNestingDepth - 1) xs = true) :
    readValue (render (.arr xs) ++ tail) ending = .ok (.arr xs, tail) := by
  rw [readValue, run_arr xs tail hfit]


/-! ## The transport driver -/

theorem header_contentType :
    Header.get (Header.set [] "Content-Type" "application/json") "Content-Type"
      = some "application/json" := by decide

theorem header_plain :
    Header.get (Header.set [] "Content-Type" "application/json") "Content-Encoding" = none := by
  decide

theorem header_gzip :
    Header.get (Header.set (Header.set [] "Content-Type" "application/json")
      "Content-Encoding" "gzip") "Content-Encoding" = some "gzip" := by decide

theorem header_gzip_contentType :
    Header.get (Header.set (Header.set [] "Content-Type" "application/json")
      "Content-Encoding" "gzip") "Content-Type" = some "application/json" := by decide

theorem exchange_cases (c : Client) (timeout : Int) (req : Request) :
    (∃ msg, exchange c timeout req
        = ⟨[.withTimeout timeout, .send req, .cancel], .error (.transport msg)⟩) ∨
    (∃ resp : Response, (resp.statusCode ≠ 200 ∧ resp.statusCode ≠ 204) ∧
      exchange c timeout req
        = ⟨[.withTimeout timeout, .send req, .readAll, .closeBody, .cancel],
            .error (.errorf (unexpectedResponse resp.statusCode (TrimSpace resp.body)))⟩) ∨
    (∃ resp : Response, (resp.statusCode = 200 ∨ resp.statusCode = 204) ∧
      exchange c timeout req = ⟨[.withTimeout timeout, .send req, .cancel], .ok resp⟩) := by
  unfold exchange
  cases c.httpClient req with
  | error msg => exact Or.inl ⟨msg, rfl⟩
  | ok resp =>
    by_cases hs : resp.statusCode ≠ 200 ∧ resp.statusCode ≠ 204
    · exact Or.inr (Or.inl ⟨resp, hs, by show ite _ _ _ = _; rw [if_pos hs]⟩)
    · refine Or.inr (Or.inr ⟨resp, ?_, by show ite _ _ _ = _; rw [if_neg hs]⟩)
      by_contra hne
      exact hs ⟨fun h => hne (Or.inl h), fun h => hne (Or.inr h)⟩

/-- The five ways a call of `sendRequest` can go. -/
theorem sendRequest_cases (env : Env) (c : Client) (endpoint : String) (timeout : Int)
    (body : Bytes) :
    sendRequest env c endpoint timeout body
        = ⟨[.withTimeout timeout, .cancel], .error .newRequest⟩ ∨
    sendRequest env c endpoint timeout body
        = ⟨[.withTimeout timeout, .cancel], .error .gzip⟩ ∨
    (∃ (req : Request) (msg : String), sendRequest env c endpoint timeout body
        = ⟨[.withTimeout timeout, .send req, .cancel], .error (.transport msg)⟩) ∨
    (∃ (req : Request) (resp : Response), (resp.statusCode ≠ 200 ∧ resp.statusCode ≠ 204) ∧
      sendRequest env c endpoint timeout body
        = ⟨[.withTimeout timeout, .send req, .readAll, .closeBody, .cancel],
            .error (.errorf (unexpectedResponse resp.statusCode (TrimSpace resp.body)))⟩) ∨
    (∃ (req : Request) (resp : Response), (resp.statusCode = 200 ∨ resp.statusCode = 204) ∧
      sendRequest env c endpoint timeout body
        = ⟨[.withTimeout timeout, .send req, .cancel], .ok resp⟩) := by
  have key : ∀ req : Request,
      (∃ (r : Request) (msg : String), exchange c timeout req
          = ⟨[.withTimeout timeout, .send r, .cancel], .error (.transport msg)⟩) ∨
      (∃ (r : Request) (resp : Response), (resp.statusCode ≠ 200 ∧ resp.statusCode ≠ 204) ∧
        exchange c timeout req
          = ⟨[.withTimeout timeout, .send r, .readAll, .closeBody, .cancel],
              .error (.errorf (unexpectedResponse resp.statusCode (TrimSpace resp.body)))⟩) ∨
      (∃ (r : Request) (resp : Response), (resp.statusCode = 200 ∨ resp.statusCode = 204) ∧
        exchange c timeout req = ⟨[.withTimeout timeout, .send r, .cancel], .ok resp⟩) := by
    intro req
    rcases exchange_cases c timeout req with ⟨msg, h⟩ | ⟨resp, hs, h⟩ | ⟨resp, hs, h⟩
    · exact Or.inl ⟨req, msg, h⟩
    · exact Or.inr (Or.inl ⟨req, resp, hs, h⟩)
    · exact Or.inr (Or.inr ⟨req, resp, hs, h⟩)
  unfold sendRequest
  by_cases hurl : env.validURL (requestURL c endpoint) = false
  · left; simp only [hurl, if_true]
  · right
    simp only [hurl, if_false]
    by_cases hc : 0 < c.gzipThreshold ∧ c.gzipThreshold ≤ (body.length : Int)
    · simp only [hc, and_self, if_true]
      cases env.gzip body with
      | none => left; rfl
      | some z => right; exact key _
    · simp only [hc, if_false]
      right; exact key _

/-- A call of `sendRequest` that gets a response: it hands the request for its payload to
the HTTP client and classifies the response. -/
theorem sendRequest_received (env : Env) (c : Client) (endpoint : String) (timeout : Int)
    (body : Bytes) (resp : Response) (h : Received env c endpoint body resp) :
    ∃ req, c.httpClient req = .ok resp ∧
      sendRequest env c endpoint timeout body =
        if resp.statusCode ≠ 200 ∧ resp.statusCode ≠ 204 then
          ⟨[.withTimeout timeout, .send req, .readAll, .closeBody, .cancel],
            .error (.errorf (unexpectedResponse resp.statusCode (TrimSpace resp.body)))⟩
        else ⟨[.withTimeout timeout, .send req, .cancel], .ok resp⟩ := by
  obtain ⟨hurl, req, hreq, hdo⟩ := h
  refine ⟨req, hdo, ?_⟩
  unfold wireRequest at hreq
  unfold sendRequest
  simp only [hurl, Bool.true_eq_false, if_false]
  by_cases hc : 0 < c.gzipThreshold ∧ c.gzipThreshold ≤ (body.length : Int)
  · simp only [hc, and_self, if_true] at hreq ⊢
    cases hz : env.gzip body with
    | none => simp [hz] at hreq
    | some z =>
      simp only [hz, Option.map_some', Option.some.injEq] at hreq
      subst hreq
      simp only [exchange, hdo]
  · simp only [hc, if_false, Option.some.injEq] at hreq ⊢
    subst hreq
    simp only [exchange, hdo]

/-- The result of a call of `sendRequest` that gets a response. -/
theorem sendRequest_result (env : Env) (c : Client) (endpoint : String) (timeout : Int)
    (body : Bytes) (resp : Response) (h : Received env c endpoint body resp) :
    (sendRequest env c endpoint timeout body).result =
      if resp.statusCode ≠ 200 ∧ resp.statusCode ≠ 204 then
        .error (.errorf (unexpectedResponse resp.statusCode (TrimSpace resp.body)))
      else .ok resp := by
  obtain ⟨req, _, hs⟩ := sendRequest_received env c endpoint timeout body resp h
  rw [hs]
  split_ifs <;> rfl

/-- The request `sendRequest` builds for a payload, given the compressed form of the payload. -/
theorem sendRequest_sent (env : Env) (c : Client) (endpoint : String) (timeout : Int)
    (b z : Bytes) (hurl : env.validURL (requestURL c endpoint) = true)
    (hz : env.gzip b = some z) :
    sentRequests (sendRequest env c endpoint timeout b).trace =
      [if 0 < c.gzipThreshold ∧ c.gzipThreshold ≤ (b.length : Int) then
        { method := "POST", url := requestURL c endpoint,
          header := Header.set (Header.set [] "Content-Type" "application/json")
            "Content-Encoding" "gzip",
          body := z, contentLength := z.length }
      else
        { method := "POST", url := requestURL c endpoint,
          header := Header.set [] "Content-Type" "application/json",
          body := b, contentLength := b.length }] := by
  have key : ∀ req, sentRequests (exchange c timeout req).trace = [req] := by
    intro req
    rcases exchange_cases c timeout req with ⟨msg, h⟩ | ⟨resp, hs, h⟩ | ⟨resp, hs, h⟩ <;>
      rw [h] <;> rfl
  unfold sendRequest
  simp only [hurl, hz, Bool.true_eq_false, if_false]
  by_cases hc : 0 < c.gzipThreshold ∧ c.gzipThreshold ≤ (b.length : Int)
  · simp only [hc, and_self, if_true, key]
  · simp only [hc, if_false, key]


/-! ## The three operations -/

/-- Go's `TrimSpace` removes a run of white space at each end and nothing else, and what is left
neither starts nor ends with white space. -/
theorem trimSpace_spec (s : String) :
    ∃ pre suf : List Char, s.data = pre ++ (TrimSpace s).data ++ suf ∧
      (∀ x ∈ pre, isSpace x = true) ∧ (∀ x ∈ suf, isSpace x = true) ∧
      (∀ x, (TrimSpace s).data.head? = some x → isSpace x = false) ∧
      (∀ x, (TrimSpace s).data.getLast? = some x → isSpace x = false) := by
  refine ⟨s.data.takeWhile isSpace, (s.data.dropWhile isSpace).rtakeWhile isSpace, ?_, ?_, ?_,
    ?_, ?_⟩
  · have h : ∀ l : List Char, List.rdropWhile isSpace l ++ List.rtakeWhile isSpace l = l := by
      intro l
      rw [List.rdropWhile, List.rtakeWhile, ← List.reverse_append,
        List.takeWhile_append_dropWhile, List.reverse_reverse]
    simp only [TrimSpace, List.append_assoc, h, List.takeWhile_append_dropWhile]
  · intro x hx; exact List.mem_takeWhile_imp hx
  · intro x hx; exact List.mem_rtakeWhile_imp hx
  · intro x hx
    simp only [TrimSpace] at hx
    have hpre : List.rdropWhile isSpace (List.dropWhile isSpace s.data)
        <+: List.dropWhile isSpace s.data := List.rdropWhile_prefix isSpace _
    obtain ⟨t, ht⟩ := hpre
    have h2 := List.head?_dropWhile_not isSpace s.data
    rw [← ht] at h2
    cases hr : List.rdropWhile isSpace (List.dropWhile isSpace s.data) with
    | nil => rw [hr] at hx; simp at hx
    | cons y ys =>
      rw [hr] at hx h2
      simp only [List.head?_cons, Option.some.injEq] at hx
      subst hx
      simpa using h2
  · intro x hx
    simp only [TrimSpace] at hx
    have hne : List.rdropWhile isSpace (List.dropWhile isSpace s.data) ≠ [] := by
      intro h; rw [h] at hx; simp at hx
    have := List.rdropWhile_last_not isSpace (List.dropWhile isSpace s.data) hne
    rw [List.getLast?_eq_getLast _ hne] at hx
    simp only [Option.some.injEq] at hx
    rw [hx] at this
    simpa using this

theorem getAll_of_sent {T : Type} (env : Env) (codec : Codec T) (c : Client)
    (ids : Slice CacheId) :
    (GetAll env codec c ids).result =
      match (sendRequest env c endpointGetAll c.getTimeout (utf8 (marshalIds ids))).result with
      | .error err => .error err
      | .ok resp =>
        match Decode codec (bodyText env resp) (bodyEnding env resp) with
        | .error err => .error (.decode err)
        | .ok hits => .ok hits := by
  unfold GetAll
  dsimp only
  generalize sendRequest env c endpointGetAll c.getTimeout (utf8 (marshalIds ids)) = o
  obtain ⟨tr, res⟩ := o
  cases res with
  | error e => rfl
  | ok resp =>
    dsimp only; cases Decode codec (bodyText env resp) (bodyEnding env resp) <;> rfl

theorem putAll_of_sent {T : Type} (env : Env) (codec : Codec T) (c : Client)
    (entries : Slice (CacheEntry T)) (text : List Char)
    (h : marshalEntries codec entries = some text) :
    (PutAll env codec c entries).result =
      match (sendRequest env c endpointPutAll c.putTimeout (utf8 text)).result with
      | .error err => .error err
      | .ok _ => .ok () := by
  unfold PutAll
  rw [h]
  dsimp only
  generalize sendRequest env c endpointPutAll c.putTimeout (utf8 text) = o
  obtain ⟨tr, res⟩ := o
  cases res <;> rfl

theorem evictAll_of_sent (env : Env) (c : Client) (ids : Slice CacheId) :
    (EvictAll env c ids).result =
      match (sendRequest env c endpointEvictAll c.evictTimeout (utf8 (marshalIds ids))).result with
      | .error err => .error err
      | .ok _ => .ok () := by
  unfold EvictAll
  dsimp only
  generalize sendRequest env c endpointEvictAll c.evictTimeout (utf8 (marshalIds ids)) = o
  obtain ⟨tr, res⟩ := o
  cases res <;> rfl

/-- In the sample environments every call of the sample client gets its response. -/
theorem demo_received (resp : Response) (endpoint : String) (b : Bytes) :
    Received demoEnv (demoClient resp) endpoint b resp :=
  ⟨rfl, _, rfl, rfl⟩



/-! ## The wire codec -/

theorem sentRequests_append (xs ys : List Event) :
    sentRequests (xs ++ ys) = sentRequests xs ++ sentRequests ys := by
  induction xs with
  | nil => rfl
  | cons e es ih => cases e <;> simp [sentRequests, ih]

theorem getAll_sent {T : Type} (env : Env) (codec : Codec T) (c : Client)
    (ids : Slice CacheId) :
    sentRequests (GetAll env codec c ids).trace
      = sentRequests (sendRequest env c endpointGetAll c.getTimeout
          (utf8 (marshalIds ids))).trace := by
  unfold GetAll
  dsimp only
  generalize sendRequest env c endpointGetAll c.getTimeout (utf8 (marshalIds ids)) = o
  obtain ⟨tr, res⟩ := o
  cases res with
  | error e => rfl
  | ok resp =>
    dsimp only
    cases Decode codec (bodyText env resp) (bodyEnding env resp) <;>
      simp [sentRequests_append, sentRequests]

theorem evictAll_sent (env : Env) (c : Client) (ids : Slice CacheId) :
    sentRequests (EvictAll env c ids).trace
      = sentRequests (sendRequest env c endpointEvictAll c.evictTimeout
          (utf8 (marshalIds ids))).trace := by
  unfold EvictAll
  dsimp only
  generalize sendRequest env c endpointEvictAll c.evictTimeout (utf8 (marshalIds ids)) = o
  obtain ⟨tr, res⟩ := o
  cases res with
  | error e => rfl
  | ok resp => simp [sentRequests_append, sentRequests]

theorem fits_str (n : Nat) (s : String) : Json.fits n (.str s) = true := by
  cases n <;> simp [Json.fits]

theorem fits_bool (n : Nat) (b : Bool) : Json.fits n (.bool b) = true := by
  cases n <;> simp [Json.fits]

theorem fits_idJson (n : Nat) (id : CacheId) : Json.fits (n + 1) (idJson id) = true := by
  rw [idJson, Json.fits, Json.fitsMembers, Json.fitsMembers, Json.fitsMembers, fits_str,
    fits_str]
  rfl

theorem fitsElems_ids (n : Nat) (ids : List CacheId) :
    Json.fitsElems (n + 1) (ids.map idJson) = true := by
  induction ids with
  | nil => rfl
  | cons id ids ih => rw [List.map_cons, Json.fitsElems, ih, fits_idJson]; rfl



theorem fieldOf_c : fieldOf "c" = some .c := by decide
theorem fieldOf_k : fieldOf "k" = some .k := by decide
theorem fieldOf_v : fieldOf "v" = some .v := by decide
theorem fieldOf_f : fieldOf "f" = some .f := by decide

/-- Decoding the object the encoder writes for a hit gives the hit back. -/
theorem decodeElem_hitJson {T : Type} (codec : Codec T) (h : CacheEntryHit T) (j : Json)
    (hj : codec.unmarshal j codec.zero = some h.Value) :
    decodeElem codec (.obj [("c", .str h.CacheName), ("k", .str h.Key), ("v", j),
      ("f", .bool h.Found)]) = some h := by
  simp [decodeElem, decodeMembers, decodeMember, fieldOf_c, fieldOf_k, fieldOf_v, fieldOf_f,
    zeroHit, hj]

theorem hits_encode {T : Type} (codec : Codec T) (hs : List (CacheEntryHit T)) :
    ∀ objs, (∀ h ∈ hs, Representable codec h.Value) →
      mapOption (hitJson codec) hs = some objs →
      Json.fitsElems (maxNestingDepth - 1) objs = true ∧
        mapOption (decodeElem codec) objs = some hs := by
  induction hs with
  | nil =>
    intro objs _ h
    simp only [mapOption, Option.some.injEq] at h
    subst h
    exact ⟨rfl, rfl⟩
  | cons h hs ih =>
    intro objs hrep henc
    obtain ⟨j, hm, hfit, hun⟩ := hrep h (List.mem_cons_self _ _)
    simp only [mapOption, hitJson, hm, Option.map_some'] at henc
    cases hrest : mapOption (hitJson codec) hs with
    | none =>
      have hrest' := hrest
      simp only [hitJson] at hrest'
      simp [hrest'] at henc
    | some rest =>
      have hrest' := hrest
      simp only [hitJson] at hrest'
      simp only [hrest', Option.some.injEq] at henc
      subst henc
      obtain ⟨ih1, ih2⟩ := ih rest (fun x hx => hrep x (List.mem_cons_of_mem _ hx)) hrest
      have hd : maxNestingDepth - 1 = (maxNestingDepth - 2) + 1 := rfl
      refine ⟨?_, ?_⟩
      · rw [Json.fitsElems, ih1, hd, Json.fits, Json.fitsMembers, Json.fitsMembers,
          Json.fitsMembers, Json.fitsMembers, fits_str, fits_str, fits_bool, hfit]
        rfl
      · rw [mapOption, decodeElem_hitJson codec h j hun, ih2]



theorem representable_string (s : String) : Representable stringCodec s :=
  ⟨.str s, rfl, fits_str _ s, rfl⟩



/-! ## Rejected and tolerated results -/

theorem mapOption_append {α β : Type} (f : α → Option β) (xs ys : List α) :
    mapOption f (xs ++ ys) =
      match mapOption f xs, mapOption f ys with
      | some a, some b => some (a ++ b)
      | _, _ => none := by
  induction xs with
  | nil =>
    rw [List.nil_append]
    cases h : mapOption f ys <;> simp [mapOption]
  | cons x xs ih =>
    rw [List.cons_append, mapOption, ih]
    cases hx : f x with
    | none => simp [mapOption, hx]
    | some y =>
      simp only [mapOption, hx]
      cases mapOption f xs <;> cases mapOption f ys <;> rfl

/-! ## Texts the scanner does not accept -/

theorem run_append_more (p q : List Char) :
    ∀ (stack : List Frame) (mode : Mode) (s1 : List Frame) (m1 : Mode),
      run stack mode p = .more s1 m1 → run stack mode (p ++ q) = run s1 m1 q := by
  induction p with
  | nil => intro stack mode s1 m1 h; simp only [run, Scan.more.injEq] at h; rw [h.1, h.2]; rfl
  | cons c cs ih =>
    intro stack mode s1 m1 h
    rw [List.cons_append, run_cons]
    rw [run_cons] at h
    cases hs : step stack mode c with
    | next s2 m2 => rw [hs, resume_next] at h; rw [resume_next]; exact ih s2 m2 s1 m1 h
    | done v1 back => rw [hs, resume_done] at h; cases h
    | fail => rw [hs] at h; cases h

/-- A top-level number is never complete at the end of the text. -/
theorem run_number_top (cut : List Char) (v : Json) :
    ∀ (ns : NumState) (raw : List Char), run [] (.number ns raw) cut ≠ .value v [] := by
  induction cut with
  | nil => intro ns raw h; simp [run] at h
  | cons c cs ih =>
    intro ns raw h
    rw [run_cons] at h
    simp only [step] at h
    cases hn : numStep ns c with
    | some ns1 => rw [hn] at h; exact ih ns1 _ h
    | none =>
      rw [hn] at h
      by_cases ha : ns.accepting = true
      · simp [ha, deliverNumber, deliver, resume] at h
      · simp [ha, resume] at h

theorem blank_nil : Blank [] := fun _ h => absurd h (List.not_mem_nil _)

theorem blank_snoc (ws : List Char) (c : Char) (h : Blank ws) (hc : isJsonSpace c = true) :
    Blank (ws ++ [c]) := by
  intro x hx
  rcases List.mem_append.1 hx with h1 | h1
  · exact h x h1
  · rw [List.mem_singleton.1 h1]; exact hc

theorem arrAwait_snoc (acc : List Json) (t : List Char) (c : Char) (h : ArrAwait acc t)
    (hc : isJsonSpace c = true) : ArrAwait acc (t ++ [c]) := by
  rcases h with ⟨h1, h2⟩ | ⟨t0, w0, w1, h1, h2, h3, rfl⟩
  · exact Or.inl ⟨h1, blank_snoc t c h2 hc⟩
  · exact Or.inr ⟨t0, w0, w1 ++ [c], h1, h2, blank_snoc w1 c h3 hc, by simp⟩

theorem keyAwait_snoc (acc : List (String × Json)) (t : List Char) (c : Char)
    (h : KeyAwait acc t) (hc : isJsonSpace c = true) : KeyAwait acc (t ++ [c]) := by
  rcases h with ⟨h1, h2⟩ | ⟨t0, w0, w1, h1, h2, h3, rfl⟩
  · exact Or.inl ⟨h1, blank_snoc t c h2 hc⟩
  · exact Or.inr ⟨t0, w0, w1 ++ [c], h1, h2, blank_snoc w1 c h3 hc, by simp⟩

theorem awaiting_snoc (stack : List Frame) (pre : List Char) (c : Char)
    (h : Awaiting stack pre) (hc : isJsonSpace c = true) : Awaiting stack (pre ++ [c]) := by
  cases stack with
  | nil => exact blank_snoc pre c h hc
  | cons f stack =>
    cases f with
    | arr acc =>
      obtain ⟨p, t, h1, h2, rfl⟩ := h
      exact ⟨p, t ++ [c], h1, arrAwait_snoc acc t c h2 hc, by simp⟩
    | key acc => exact h.elim
    | val acc k =>
      obtain ⟨p, t, h1, ⟨t1, w2, h2, h3, rfl⟩, rfl⟩ := h
      exact ⟨p, t1 ++ ':' :: w2 ++ [c], h1, ⟨t1, w2 ++ [c], h2, blank_snoc w2 c h3 hc, by simp⟩,
        by simp⟩

theorem awaitingKey_snoc (stack : List Frame) (pre : List Char) (c : Char)
    (h : AwaitingKey stack pre) (hc : isJsonSpace c = true) :
    AwaitingKey stack (pre ++ [c]) := by
  cases stack with
  | nil => exact h.elim
  | cons f stack =>
    cases f with
    | arr acc => exact h.elim
    | val acc k => exact h.elim
    | key acc =>
      obtain ⟨p, t, h1, h2, rfl⟩ := h
      exact ⟨p, t ++ [c], h1, keyAwait_snoc acc t c h2 hc, by simp⟩

theorem ended_snoc (stack : List Frame) (pre : List Char) (c : Char)
    (h : Ended stack pre) (hc : isJsonSpace c = true) : Ended stack (pre ++ [c]) := by
  cases stack with
  | nil => exact h.elim
  | cons f stack =>
    cases f with
    | arr acc =>
      obtain ⟨p, t, h1, ⟨t0, w0, h2, h3, rfl⟩, rfl⟩ := h
      exact ⟨p, t0 ++ w0 ++ [c], h1, ⟨t0, w0 ++ [c], h2, blank_snoc w0 c h3 hc, by simp⟩,
        by simp⟩
    | key acc =>
      obtain ⟨p, t, h1, ⟨t0, w0, h2, h3, rfl⟩, rfl⟩ := h
      exact ⟨p, t0 ++ w0 ++ [c], h1, ⟨t0, w0 ++ [c], h2, blank_snoc w0 c h3 hc, by simp⟩,
        by simp⟩
    | val acc k =>
      obtain ⟨p, t, h1, ⟨t1, raw, w1, h2, h3, h4, h5, rfl⟩, rfl⟩ := h
      exact ⟨p, t1 ++ '"' :: raw ++ '"' :: w1 ++ [c], h1,
        ⟨t1, raw, w1 ++ [c], h2, h3, h4, blank_snoc w1 c h5 hc, by simp⟩, by simp⟩

theorem elems_await (acc : List Json) (t0 t : List Char) (v : Json) (h : ArrAwait acc t0)
    (hv : Spells v t) : Elems (v :: acc) (t0 ++ t) := by
  rcases h with ⟨rfl, h2⟩ | ⟨t00, w0, w1, h1, h2, h3, rfl⟩
  · exact Elems.one t0 t v h2 hv
  · have := Elems.more acc t00 w0 w1 t v h1 h2 h3 hv
    simpa using this

theorem members_await (acc : List (String × Json)) (k : String) (t0 t : List Char) (v : Json)
    (h : ValAwait acc k t0) (hv : Spells v t) : Members ((k, v) :: acc) (t0 ++ t) := by
  obtain ⟨t1, w2, ⟨t2, raw, w1, hk, hraw, rfl, hw1, rfl⟩, hw2, rfl⟩ := h
  rcases hk with ⟨rfl, h2⟩ | ⟨t00, w, w0, h1, h2, h3, rfl⟩
  · have := Members.one t2 raw w1 w2 t v h2 hraw hw1 hw2 hv
    simpa using this
  · have := Members.more acc t00 w w0 raw w1 w2 t v h1 h2 h3 hraw hw1 hw2 hv
    simpa using this

/-- A value read where one is awaited is stored in the waiting frame, or is the result. -/
theorem deliver_ok (v : Json) (stack : List Frame) (p t : List Char) (h : Awaiting stack p)
    (hv : Spells v t) : Reached (p ++ t) (deliver v stack) := by
  cases stack with
  | nil => exact ⟨p, t, h, hv, by simp⟩
  | cons f stack =>
    cases f with
    | arr acc =>
      obtain ⟨p0, t0, h1, h2, rfl⟩ := h
      exact ⟨p0, t0 ++ t, h1, ⟨t0 ++ t, [], elems_await acc t0 t v h2 hv, blank_nil, by simp⟩,
        by simp⟩
    | key acc => exact h.elim
    | val acc k =>
      obtain ⟨p0, t0, h1, h2, rfl⟩ := h
      exact ⟨p0, t0 ++ t, h1,
        ⟨t0 ++ t, [], members_await acc k t0 t v h2 hv, blank_nil, by simp⟩, by simp⟩

theorem deliverToken_ok (v : Json) (stack : List Frame) (p t : List Char)
    (h : Awaiting stack p) (hv : Spells v t) : Reached (p ++ t) (deliverToken v stack) := by
  cases stack with
  | nil => exact ⟨rfl, p, t, h, hv, rfl⟩
  | cons f stack => exact deliver_ok v (f :: stack) p t h hv

/-- A string read where a key is awaited is the key of the next member. -/
theorem deliverKey_ok (stack : List Frame) (p raw : List Char) (h : AwaitingKey stack p)
    (hraw : StrBody raw) :
    Reached (p ++ '"' :: raw ++ ['"'])
      (deliverToken (.str (String.mk (unquote raw))) stack) := by
  cases stack with
  | nil => exact h.elim
  | cons f stack =>
    cases f with
    | arr acc => exact h.elim
    | val acc k => exact h.elim
    | key acc =>
      obtain ⟨p0, t0, h1, h2, rfl⟩ := h
      exact ⟨p0, t0 ++ '"' :: raw ++ ['"'], h1,
        ⟨t0, raw, [], h2, hraw, rfl, blank_nil, by simp⟩, by simp⟩

theorem stepEndValue_ok (stack : List Frame) (pre : List Char) (c : Char)
    (h : Ended stack pre) : Reached (pre ++ [c]) (stepEndValue stack c) := by
  unfold stepEndValue
  by_cases hs : isJsonSpace c = true
  · rw [if_pos hs]
    exact ended_snoc stack pre c h hs
  · rw [if_neg hs]
    cases stack with
    | nil => exact h.elim
    | cons f stack =>
      cases f with
      | arr acc =>
        obtain ⟨p, t, h1, ⟨t0, w0, h2, h3, rfl⟩, rfl⟩ := h
        dsimp only
        by_cases hc : c = ','
        · rw [if_pos hc, hc]
          exact ⟨p, t0 ++ w0 ++ [','], h1, Or.inr ⟨t0, w0, [], h2, h3, blank_nil, rfl⟩, by simp⟩
        · rw [if_neg hc]
          by_cases hd : c = ']'
          · rw [if_pos hd, hd]
            have ht : p ++ '[' :: (t0 ++ w0) ++ [']'] = p ++ ('[' :: t0 ++ w0 ++ [']']) := by
              simp
            rw [ht]
            exact deliver_ok _ stack p _ h1 (Spells.arr acc t0 w0 h2 h3)
          · rw [if_neg hd]; trivial
      | key acc =>
        obtain ⟨p, t, h1, ⟨t0, w0, h2, h3, rfl⟩, rfl⟩ := h
        dsimp only
        by_cases hc : c = ','
        · rw [if_pos hc, hc]
          exact ⟨p, t0 ++ w0 ++ [','], h1, Or.inr ⟨t0, w0, [], h2, h3, blank_nil, rfl⟩, by simp⟩
        · rw [if_neg hc]
          by_cases hd : c = '}'
          · rw [if_pos hd, hd]
            have ht : p ++ '{' :: (t0 ++ w0) ++ ['}'] = p ++ ('{' :: t0 ++ w0 ++ ['}']) := by
              simp
            rw [ht]
            exact deliver_ok _ stack p _ h1 (Spells.obj acc t0 w0 h2 h3)
          · rw [if_neg hd]; trivial
      | val acc k =>
        obtain ⟨p, t, h1, h2, rfl⟩ := h
        dsimp only
        by_cases hc : c = ':'
        · rw [if_pos hc, hc]
          exact ⟨p, t ++ [':'], h1, ⟨t, [], h2, blank_nil, rfl⟩, by simp⟩
        · rw [if_neg hc]; trivial

theorem spells_null : Spells .null (['n'] ++ "ull".data) := Spells.null
theorem spells_true : Spells (.bool true) (['t'] ++ "rue".data) := Spells.tt
theorem spells_false : Spells (.bool false) (['f'] ++ "alse".data) := Spells.ff

theorem numReach_first (c : Char) (ns : NumState) (h : startNum c = some ns) :
    NumReach ns [c] := ⟨c, [], ns, rfl, h, rfl⟩

theorem stepBeginValue_ok (stack : List Frame) (pre : List Char) (c : Char)
    (h : Awaiting stack pre) : Reached (pre ++ [c]) (stepBeginValue stack c) := by
  unfold stepBeginValue
  by_cases h1 : isJsonSpace c = true
  · rw [if_pos h1]; exact awaiting_snoc stack pre c h h1
  rw [if_neg h1]
  by_cases h2 : c = '{'
  · rw [if_pos h2, h2]
    unfold push
    by_cases hl : stack.length + 1 ≤ maxNestingDepth
    · rw [if_pos hl]; exact ⟨stack, pre, [], rfl, h, blank_nil, rfl⟩
    · rw [if_neg hl]; trivial
  rw [if_neg h2]
  by_cases h3 : c = '['
  · rw [if_pos h3, h3]
    unfold push
    by_cases hl : stack.length + 1 ≤ maxNestingDepth
    · rw [if_pos hl]; exact ⟨stack, pre, [], rfl, h, blank_nil, rfl⟩
    · rw [if_neg hl]; trivial
  rw [if_neg h3]
  by_cases h4 : c = '"'
  · rw [if_pos h4, h4]; exact ⟨pre, Or.inl h, StrBody.nil, rfl⟩
  rw [if_neg h4]
  by_cases h5 : c = '-'
  · rw [if_pos h5, h5]; exact ⟨pre, h, numReach_first '-' .neg (by decide), rfl⟩
  rw [if_neg h5]
  by_cases h6 : c = '0'
  · rw [if_pos h6, h6]; exact ⟨pre, h, numReach_first '0' .zero (by decide), rfl⟩
  rw [if_neg h6]
  by_cases h7 : c = 't'
  · rw [if_pos h7, h7]; exact ⟨pre, ['t'], h, spells_true, rfl⟩
  rw [if_neg h7]
  by_cases h8 : c = 'f'
  · rw [if_pos h8, h8]; exact ⟨pre, ['f'], h, spells_false, rfl⟩
  rw [if_neg h8]
  by_cases h9 : c = 'n'
  · rw [if_pos h9, h9]; exact ⟨pre, ['n'], h, spells_null, rfl⟩
  rw [if_neg h9]
  by_cases h10 : isDigit c = true
  · rw [if_pos h10]
    refine ⟨pre, h, numReach_first c .int ?_, rfl⟩
    simp [startNum, h5, h6, h10]
  rw [if_neg h10]
  trivial

theorem stepBeginString_ok (stack : List Frame) (pre : List Char) (c : Char)
    (h : AwaitingKey stack pre) : Reached (pre ++ [c]) (stepBeginString stack c) := by
  unfold stepBeginString
  by_cases h1 : isJsonSpace c = true
  · rw [if_pos h1]; exact awaitingKey_snoc stack pre c h h1
  rw [if_neg h1]
  by_cases h4 : c = '"'
  · rw [if_pos h4, h4]; exact ⟨pre, Or.inr h, StrBody.nil, rfl⟩
  rw [if_neg h4]
  trivial

theorem numRun_snoc (ns0 : NumState) (cs : List Char) (c : Char) :
    numRun ns0 (cs ++ [c]) = (numRun ns0 cs).bind fun s => numStep s c := by
  simp [numRun, List.foldl_append]

theorem numReach_snoc (ns ns1 : NumState) (text : List Char) (c : Char)
    (h : NumReach ns text) (hc : numStep ns c = some ns1) : NumReach ns1 (text ++ [c]) := by
  obtain ⟨c0, cs, ns0, rfl, h1, h2⟩ := h
  refine ⟨c0, cs ++ [c], ns0, rfl, h1, ?_⟩
  rw [numRun_snoc, h2]
  exact hc

theorem numRun_none (cs : List Char) :
    cs.foldl (fun o c => o.bind fun s => numStep s c) none = none := by
  induction cs with
  | nil => rfl
  | cons c cs ih => exact ih

theorem numAccepts_of_run (cs : List Char) :
    ∀ ns0 ns, numRun ns0 cs = some ns → ns.accepting = true → numAccepts ns0 cs = true := by
  induction cs with
  | nil =>
    intro ns0 ns h ha
    simp only [numRun, List.foldl_nil, Option.some.injEq] at h
    subst h
    exact ha
  | cons c cs ih =>
    intro ns0 ns h ha
    simp only [numRun, List.foldl_cons, Option.some_bind] at h
    rw [numAccepts]
    cases hs : numStep ns0 c with
    | none => rw [hs, numRun_none] at h; cases h
    | some ns1 =>
      rw [hs] at h
      exact ih ns1 ns h ha

theorem numReach_valid (ns : NumState) (text : List Char) (h : NumReach ns text)
    (ha : ns.accepting = true) : validNumber text = true := by
  obtain ⟨c0, cs, ns0, rfl, h1, h2⟩ := h
  simp only [validNumber, h1]
  exact numAccepts_of_run cs ns0 ns h2 ha

theorem deliverNumber_ok (v : Json) (stack : List Frame) (p t : List Char) (c : Char)
    (h : Awaiting stack p) (hv : Spells v t) :
    Reached (p ++ t ++ [c]) (deliverNumber v stack c) := by
  have hd := deliver_ok v stack p t h hv
  unfold deliverNumber
  cases hr : deliver v stack with
  | next s1 m1 =>
    rw [hr] at hd
    dsimp only
    have hm : m1 = .endValue := by
      cases stack with
      | nil => simp [deliver] at hr
      | cons f stack =>
        cases f with
        | arr acc => simp only [deliver, Step.next.injEq] at hr; exact hr.2.symm
        | key acc => exact h.elim
        | val acc k => simp only [deliver, Step.next.injEq] at hr; exact hr.2.symm
    subst hm
    exact stepEndValue_ok s1 (p ++ t) c hd
  | done v1 back =>
    rw [hr] at hd
    obtain ⟨ws, t1, h1, h2, h3⟩ := hd
    dsimp only
    cases stack with
    | nil =>
      simp only [deliver, Step.done.injEq] at hr
      obtain ⟨rfl, rfl⟩ := hr
      exact ⟨p, t, h, hv, rfl⟩
    | cons f stack =>
      cases f with
      | arr acc => simp [deliver] at hr
      | key acc => exact h.elim
      | val acc k => simp [deliver] at hr
  | fail => trivial

/-- Every step of the scanner keeps the text read so far in line with its state. -/
theorem step_ok (stack : List Frame) (mode : Mode) (pre : List Char) (c : Char)
    (h : Inv stack mode pre) : Reached (pre ++ [c]) (step stack mode c) := by
  cases mode with
  | beginValue => exact stepBeginValue_ok stack pre c h
  | beginValueOrEmpty =>
    obtain ⟨rest, p, ws, rfl, h1, h2, rfl⟩ := h
    simp only [step]
    by_cases hs : isJsonSpace c = true
    · rw [if_pos hs]
      exact ⟨rest, p, ws ++ [c], rfl, h1, blank_snoc ws c h2 hs, by simp⟩
    · rw [if_neg hs]
      by_cases hc : c = ']'
      · rw [if_pos hc, hc]
        have hstep : stepEndValue (.arr [] :: rest) ']' = deliver (.arr []) rest := by
          simp [stepEndValue, isJsonSpace]
        have ht : p ++ '[' :: ws ++ [']'] = p ++ ('[' :: ws ++ [']']) := by simp
        rw [hstep, ht]
        exact deliver_ok _ rest p _ h1 (Spells.arr0 ws h2)
      · rw [if_neg hc]
        exact stepBeginValue_ok _ _ c ⟨p, ws, h1, Or.inl ⟨rfl, h2⟩, rfl⟩
  | beginStringOrEmpty =>
    obtain ⟨rest, p, ws, rfl, h1, h2, rfl⟩ := h
    simp only [step]
    by_cases hs : isJsonSpace c = true
    · rw [if_pos hs]
      exact ⟨rest, p, ws ++ [c], rfl, h1, blank_snoc ws c h2 hs, by simp⟩
    · rw [if_neg hs]
      by_cases hc : c = '}'
      · rw [if_pos hc, hc]
        have hstep : stepEndValue (.key [] :: rest) '}' = deliver (.obj []) rest := by
          simp [stepEndValue, isJsonSpace]
        have ht : p ++ '{' :: ws ++ ['}'] = p ++ ('{' :: ws ++ ['}']) := by simp
        rw [hstep, ht]
        exact deliver_ok _ rest p _ h1 (Spells.obj0 ws h2)
      · rw [if_neg hc]
        exact stepBeginString_ok _ _ c ⟨p, ws, h1, Or.inl ⟨rfl, h2⟩, rfl⟩
  | beginString => exact stepBeginString_ok stack pre c h
  | endValue => exact stepEndValue_ok stack pre c h
  | inString raw =>
    obtain ⟨p, hp, hb, rfl⟩ := h
    simp only [step]
    by_cases hq : c = '"'
    · rw [if_pos hq, hq]
      have ht : p ++ '"' :: raw.reverse ++ ['"'] = p ++ ('"' :: raw.reverse ++ ['"']) := by
        simp
      rcases hp with hp | hp
      · rw [ht]
        exact deliverToken_ok _ stack p _ hp (Spells.str raw.reverse hb)
      · exact deliverKey_ok stack p raw.reverse hp hb
    · rw [if_neg hq]
      by_cases hbs : c = '\\'
      · rw [if_pos hbs, hbs]
        exact ⟨p, raw, hp, hb, rfl, by simp⟩
      · rw [if_neg hbs]
        by_cases hctl : c.toNat < 0x20
        · rw [if_pos hctl]; trivial
        · rw [if_neg hctl]
          exact ⟨p, hp, by simpa using StrBody.plain raw.reverse c hb hq hbs hctl, by simp⟩
  | inStringEsc raw =>
    obtain ⟨p, r, hp, hb, rfl, rfl⟩ := h
    simp only [step]
    by_cases he : c = 'b' ∨ c = 'f' ∨ c = 'n' ∨ c = 'r' ∨ c = 't' ∨ c = '\\' ∨ c = '/' ∨ c = '"'
    · rw [if_pos he]
      exact ⟨p, hp, by simpa using StrBody.esc r.reverse c hb he, by simp⟩
    · rw [if_neg he]
      by_cases hu : c = 'u'
      · rw [if_pos hu, hu]
        exact ⟨p, r, [], hp, hb, rfl, rfl, by decide, by simp, by simp⟩
      · rw [if_neg hu]; trivial
  | inStringEscU raw seen =>
    obtain ⟨p, r, hs, hp, hb, rfl, rfl, hle, hhex, rfl⟩ := h
    simp only [step]
    by_cases hx : isHex c = true
    · rw [if_pos hx]
      by_cases hlt : hs.length < 3
      · rw [if_pos hlt]
        refine ⟨p, r, c :: hs, hp, hb, rfl, rfl, hlt, ?_, by simp⟩
        intro x hmem
        rcases List.mem_cons.1 hmem with rfl | h1
        · exact hx
        · exact hhex x h1
      · rw [if_neg hlt]
        have h3 : hs.length = 3 := by omega
        obtain ⟨x3, x2, x1, rfl⟩ := List.length_eq_three.1 h3
        refine ⟨p, hp, ?_, by simp⟩
        have := StrBody.uni r.reverse x1 x2 x3 c hb (hhex x1 (by simp)) (hhex x2 (by simp))
          (hhex x3 (by simp)) hx
        simpa using this
    · rw [if_neg hx]; trivial
  | number ns raw =>
    obtain ⟨p, hp, hn, rfl⟩ := h
    simp only [step]
    cases hs : numStep ns c with
    | some ns1 =>
      dsimp only
      exact ⟨p, hp, by simpa using numReach_snoc ns ns1 raw.reverse c hn hs, by simp⟩
    | none =>
      dsimp only
      by_cases ha : ns.accepting = true
      · rw [if_pos ha]
        exact deliverNumber_ok _ stack p raw.reverse c hp
          (Spells.num (String.mk raw.reverse) (numReach_valid ns raw.reverse hn ha))
      · rw [if_neg ha]; trivial
  | literal todo v =>
    obtain ⟨p, seen, hp, hv, rfl⟩ := h
    simp only [step]
    match todo, hv with
    | [], _ => trivial
    | [x], hv =>
      dsimp only
      by_cases hc : c = x
      · rw [if_pos hc, hc, List.append_assoc]
        exact deliverToken_ok v stack p _ hp hv
      · rw [if_neg hc]; trivial
    | x :: y :: ys, hv =>
      dsimp only
      by_cases hc : c = x
      · rw [if_pos hc, hc]
        exact ⟨p, seen ++ [x], hp, by simpa using hv, by simp⟩
      · rw [if_neg hc]; trivial
  | endTop v =>
    obtain ⟨rfl, ws, t, h1, h2, rfl⟩ := h
    exact ⟨ws, t, h1, h2, rfl⟩


theorem run_ok (text : List Char) :
    ∀ (stack : List Frame) (mode : Mode) (pre : List Char), Inv stack mode pre →
      match run stack mode text with
      | .value v rest => ∃ ws t, Blank ws ∧ Spells v t ∧ pre ++ text = ws ++ t ++ rest
      | .syntaxError => True
      | .more s m => Inv s m (pre ++ text) := by
  induction text with
  | nil =>
    intro stack mode pre h
    simp only [run, List.append_nil]
    exact h
  | cons c cs ih =>
    intro stack mode pre h
    have hstep := step_ok stack mode pre c h
    rw [run_cons]
    cases hs : step stack mode c with
    | next s1 m1 =>
      rw [hs] at hstep
      rw [resume_next]
      have := ih s1 m1 (pre ++ [c]) hstep
      simpa using this
    | done v back =>
      rw [hs] at hstep
      obtain ⟨ws, t, h1, h2, h3⟩ := hstep
      rw [resume_done]
      refine ⟨ws, t, h1, h2, ?_⟩
      have : pre ++ c :: cs = (pre ++ [c]) ++ cs := by simp
      rw [this, h3]
      simp
    | fail => trivial

theorem startNum_head (c : Char) (ns : NumState) (h : startNum c = some ns) :
    startsValue c = true ∧ isJsonSpace c = false := by
  unfold startNum at h
  split_ifs at h with h1 h2 h3
  · subst h1; decide
  · subst h2; decide
  · have hd : 48 ≤ c.toNat ∧ c.toNat ≤ 57 := by simpa [isDigit, le_iff_toNat] using h3
    have hne : ∀ d : Char, d.toNat < 48 ∨ 57 < d.toNat → c ≠ d := by
      intro d hdd hcd; subst hcd; omega
    constructor
    · simp [startsValue, h3]
    · simp [isJsonSpace, hne ' ' (by decide), hne '\t' (by decide), hne '\r' (by decide),
        hne '\n' (by decide)]

/-- A JSON text begins with a character that begins a value, which is not white space. -/
theorem spells_head (v : Json) (t : List Char) (h : Spells v t) :
    ∃ c cs, t = c :: cs ∧ startsValue c = true ∧ isJsonSpace c = false := by
  cases h with
  | null => exact ⟨'n', "ull".data, by decide, by decide, by decide⟩
  | tt => exact ⟨'t', "rue".data, by decide, by decide, by decide⟩
  | ff => exact ⟨'f', "alse".data, by decide, by decide, by decide⟩
  | num lit hv =>
    cases hl : lit.data with
    | nil => rw [hl] at hv; simp [validNumber] at hv
    | cons c cs =>
      rw [hl] at hv
      simp only [validNumber] at hv
      cases hs : startNum c with
      | none => rw [hs] at hv; cases hv
      | some ns => exact ⟨c, cs, rfl, startNum_head c ns hs⟩
  | str raw _ => exact ⟨'"', raw ++ ['"'], rfl, by decide, by decide⟩
  | arr0 ws _ => exact ⟨'[', ws ++ [']'], rfl, by decide, by decide⟩
  | arr acc t ws _ _ => exact ⟨'[', t ++ ws ++ [']'], by simp, by decide, by decide⟩
  | obj0 ws _ => exact ⟨'{', ws ++ ['}'], rfl, by decide, by decide⟩
  | obj acc t ws _ _ => exact ⟨'{', t ++ ws ++ ['}'], by simp, by decide, by decide⟩

theorem blank_noValue (text : List Char) (h : Blank text) : ¬ StartsWithValue text := by
  rintro ⟨v, ws, t, rest, _, h2, rfl⟩
  obtain ⟨c, cs, rfl, _, hc⟩ := spells_head v t h2
  have := h c (by simp)
  rw [hc] at this
  cases this

/-- The encoding of an array is a JSON text of the array. -/
theorem spells_arr (xs : List Json) (hfit : Json.fitsElems (maxNestingDepth - 1) xs = true) :
    Spells (.arr xs) (render (.arr xs)) := by
  have hrun := run_arr xs [] hfit
  rw [List.append_nil] at hrun
  have hok := run_ok (render (.arr xs)) [] .beginValue [] blank_nil
  rw [hrun] at hok
  obtain ⟨ws, t, h1, h2, h3⟩ := hok
  cases ws with
  | nil => simp only [List.nil_append, List.append_nil] at h3; rw [h3]; exact h2
  | cons w ws =>
    exfalso
    have hw := h1 w (List.mem_cons_self _ _)
    have hh : render (.arr xs) = '[' :: (renderElems xs ++ [']']) := by simp [render]
    rw [hh] at h3
    simp only [List.nil_append, List.cons_append, List.cons.injEq] at h3
    rw [← h3.1] at hw
    cases hw

theorem decodeMembers_notFound {T : Type} (codec : Codec T) (kvs : List (String × Json)) :
    ∀ (name key : String), NotFoundMembers codec kvs →
      decodeMembers codec ⟨name, key, codec.zero, false⟩ kvs
        = some ⟨lastString .c name kvs, lastString .k key kvs, codec.zero, false⟩ := by
  induction kvs with
  | nil => intro name key _; rfl
  | cons m ms ih =>
    intro name key h
    have hm := h m (List.mem_cons_self _ _)
    have hms : NotFoundMembers codec ms := fun x hx => h x (List.mem_cons_of_mem _ hx)
    obtain ⟨k, j⟩ := m
    rw [decodeMembers, decodeMember, lastString, lastString]
    dsimp only at hm ⊢
    cases hf : fieldOf k with
    | none => simp [ih name key hms]
    | some fld =>
      rw [hf] at hm
      cases fld with
      | c =>
        rcases hm with ⟨s, rfl⟩ | rfl
        · simp [ih s key hms]
        · simp [ih name key hms]
      | k =>
        rcases hm with ⟨s, rfl⟩ | rfl
        · simp [ih name s hms]
        · simp [ih name key hms]
      | v => simp [hm, ih name key hms]
      | f =>
        rcases hm with rfl | rfl
        · simp [ih name key hms]
        · simp [ih name key hms]

/-- A result object for a key that was not found decodes to an entry with the zero value and
`Found = false`, whatever the order of its members. -/
theorem decodeElem_notFound {T : Type} (codec : Codec T) (kvs : List (String × Json))
    (h : NotFoundMembers codec kvs) :
    decodeElem codec (.obj kvs)
      = some ⟨lastString .c "" kvs, lastString .k "" kvs, codec.zero, false⟩ :=
  decodeMembers_notFound codec kvs "" "" h

/-! ## The operations on a call that gets a response -/

/-- A call of `GetAll` that gets a response with status 200 or 204 goes on to decode the
body, after the deadline context has been cancelled. -/
theorem getAll_received {T : Type} (env : Env) (codec : Codec T) (c : Client)
    (ids : Slice CacheId) (resp : Response)
    (hcode : resp.statusCode = 200 ∨ resp.statusCode = 204)
    (h : Received env c endpointGetAll (utf8 (marshalIds ids)) resp) :
    ∃ req, c.httpClient req = .ok resp ∧
      (GetAll env codec c ids).trace
        = [.withTimeout c.getTimeout, .send req, .cancel, .decodeBody, .closeBody] ∧
      (GetAll env codec c ids).result =
        match Decode codec (bodyText env resp) (bodyEnding env resp) with
        | .error err => .error (.decode err)
        | .ok hits => .ok hits := by
  have hs : ¬ (resp.statusCode ≠ 200 ∧ resp.statusCode ≠ 204) := by
    rintro ⟨h1, h2⟩; rcases hcode with h | h
    · exact h1 h
    · exact h2 h
  obtain ⟨req, hdo, hsend⟩ := sendRequest_received env c endpointGetAll c.getTimeout _ resp h
  rw [if_neg hs] at hsend
  refine ⟨req, hdo, ?_, ?_⟩
  · unfold GetAll
    dsimp only
    rw [hsend]
    dsimp only
    cases Decode codec (bodyText env resp) (bodyEnding env resp) <;> rfl
  · rw [getAll_of_sent, hsend]

/-- A call of `PutAll` that gets a response with status 200 or 204 closes the body without
reading it and returns no error. -/
theorem putAll_received {T : Type} (env : Env) (codec : Codec T) (c : Client)
    (entries : Slice (CacheEntry T)) (text : List Char) (resp : Response)
    (hcode : resp.statusCode = 200 ∨ resp.statusCode = 204)
    (hmar : marshalEntries codec entries = some text)
    (h : Received env c endpointPutAll (utf8 text) resp) :
    ∃ req, c.httpClient req = .ok resp ∧
      PutAll env codec c entries
        = ⟨[.withTimeout c.putTimeout, .send req, .cancel, .closeBody], .ok ()⟩ := by
  have hs : ¬ (resp.statusCode ≠ 200 ∧ resp.statusCode ≠ 204) := by
    rintro ⟨h1, h2⟩; rcases hcode with h | h
    · exact h1 h
    · exact h2 h
  obtain ⟨req, hdo, hsend⟩ := sendRequest_received env c endpointPutAll c.putTimeout _ resp h
  rw [if_neg hs] at hsend
  refine ⟨req, hdo, ?_⟩
  unfold PutAll
  rw [hmar]
  dsimp only
  rw [hsend]
  rfl

/-- A call of `EvictAll` that gets a response with status 200 or 204 closes the body without
reading it and returns no error. -/
theorem evictAll_received (env : Env) (c : Client) (ids : Slice CacheId) (resp : Response)
    (hcode : resp.statusCode = 200 ∨ resp.statusCode = 204)
    (h : Received env c endpointEvictAll (utf8 (marshalIds ids)) resp) :
    ∃ req, c.httpClient req = .ok resp ∧
      EvictAll env c ids
        = ⟨[.withTimeout c.evictTimeout, .send req, .cancel, .closeBody], .ok ()⟩ := by
  have hs : ¬ (resp.statusCode ≠ 200 ∧ resp.statusCode ≠ 204) := by
    rintro ⟨h1, h2⟩; rcases hcode with h | h
    · exact h1 h
    · exact h2 h
  obtain ⟨req, hdo, hsend⟩ := sendRequest_received env c endpointEvictAll c.evictTimeout _ resp h
  rw [if_neg hs] at hsend
  refine ⟨req, hdo, ?_⟩
  unfold EvictAll
  dsimp only
  rw [hsend]
  rfl

/-! ## The text of a batch of identifiers -/

theorem renderElems_intercalate (xs : List Json) :
    renderElems xs = List.intercalate [','] (xs.map render) := by
  induction xs with
  | nil => rfl
  | cons x xs ih =>
    cases xs with
    | nil => simp [renderElems, List.intercalate]
    | cons y ys =>
      rw [renderElems, ih]
      simp [List.intercalate]

theorem render_idJson (id : CacheId) :
    render (idJson id)
      = "\x7b\"c\":".data ++ quote id.CacheName ++ ",\"k\":".data ++ quote id.Key ++ ['}'] := by
  have h1 : quote "c" = "\"c\"".data := by decide
  have h2 : quote "k" = "\"k\"".data := by decide
  simp [idJson, render, renderMembers, h1, h2]

/-- The text of a non-nil slice of identifiers, written out. -/
theorem marshalIds_text (ids : List CacheId) :
    marshalIds (.mk ids) =
      '[' :: List.intercalate [','] (ids.map fun id =>
        "\x7b\"c\":".data ++ quote id.CacheName ++ ",\"k\":".data ++ quote id.Key ++ ['}'])
        ++ [']'] := by
  have h : render ∘ idJson = fun id : CacheId =>
      "\x7b\"c\":".data ++ quote id.CacheName ++ ",\"k\":".data ++ quote id.Key ++ ['}'] :=
    funext render_idJson
  rw [marshalIds, idsJson, render, renderElems_intercalate, List.map_map, h]

/-- The body of the request a call of `sendRequest` sends. -/
theorem sendRequest_body (env : Env) (c : Client) (endpoint : String) (timeout : Int)
    (b z : Bytes) (hurl : env.validURL (requestURL c endpoint) = true)
    (hz : env.gzip b = some z) :
    (sentRequests (sendRequest env c endpoint timeout b).trace).map Request.body =
      [if 0 < c.gzipThreshold ∧ c.gzipThreshold ≤ (b.length : Int) then z else b] := by
  rw [sendRequest_sent env c endpoint timeout b z hurl hz]
  by_cases hc : 0 < c.gzipThreshold ∧ c.gzipThreshold ≤ (b.length : Int)
  · simp only [hc, and_self, if_true, List.map_cons, List.map_nil]
  · simp only [hc, if_false, List.map_cons, List.map_nil]

/-! ## The claims -/

/-- C1 (compression policy of `sendRequest`): for every threshold `t = c.gzipThreshold`
(any integer) and every payload `b` whose gzip compression is `z`, exactly one request is
handed to the transport; it always carries `Content-Type: application/json`; it carries
`Content-Encoding: gzip` if and only if `0 < t` and `t ≤ len(b)`; in that case its body is
`z`, otherwise its body is `b` unmodified and no `Content-Encoding` header is set. -/
theorem sendRequest_compression (env : Env) (c : Client) (endpoint : String) (timeout : Int)
    (b z : Bytes) (hurl : env.validURL (requestURL c endpoint) = true)
    (hz : env.gzip b = some z) :
    ∃ req, sentRequests (sendRequest env c endpoint timeout b).trace = [req] ∧
      req.header.get "Content-Type" = some "application/json" ∧
      (req.header.get "Content-Encoding" = some "gzip" ↔
        0 < c.gzipThreshold ∧ c.gzipThreshold ≤ (b.length : Int)) ∧
      (0 < c.gzipThreshold ∧ c.gzipThreshold ≤ (b.length : Int) →
        req.body = z ∧ req.contentLength = z.length) ∧
      (¬ (0 < c.gzipThreshold ∧ c.gzipThreshold ≤ (b.length : Int)) →
        req.body = b ∧ req.contentLength = b.length ∧
        req.header.get "Content-Encoding" = none) := by
  refine ⟨_, sendRequest_sent env c endpoint timeout b z hurl hz, ?_⟩
  by_cases hc : 0 < c.gzipThreshold ∧ c.gzipThreshold ≤ (b.length : Int)
  · simp only [hc, and_self, if_true, header_gzip, header_gzip_contentType, not_true_eq_false,
      true_and, iff_true, forall_true_left, false_implies, and_true]
  · simp only [hc, if_false, header_plain, header_contentType, not_false_eq_true, true_and,
      false_implies, forall_true_left, and_true, iff_false]
    simp

/-- Witness for C1: with threshold 3, a payload of exactly 3 bytes. -/
theorem sendRequest_compression_witness :
    ∃ req, sentRequests
        (sendRequest demoEnv (gzipClient 3 ⟨204, ""⟩) endpointPutAll 0 [1, 2, 3]).trace = [req] ∧
      req.header.get "Content-Type" = some "application/json" ∧
      (req.header.get "Content-Encoding" = some "gzip" ↔
        0 < (gzipClient 3 ⟨204, ""⟩).gzipThreshold ∧
          (gzipClient 3 ⟨204, ""⟩).gzipThreshold ≤ (([1, 2, 3] : Bytes).length : Int)) ∧
      (0 < (gzipClient 3 ⟨204, ""⟩).gzipThreshold ∧
          (gzipClient 3 ⟨204, ""⟩).gzipThreshold ≤ (([1, 2, 3] : Bytes).length : Int) →
        req.body = [0x1f, 0x8b, 1, 2, 3] ∧
          req.contentLength = ([0x1f, 0x8b, 1, 2, 3] : Bytes).length) ∧
      (¬ (0 < (gzipClient 3 ⟨204, ""⟩).gzipThreshold ∧
          (gzipClient 3 ⟨204, ""⟩).gzipThreshold ≤ (([1, 2, 3] : Bytes).length : Int)) →
        req.body = [1, 2, 3] ∧ req.contentLength = ([1, 2, 3] : Bytes).length ∧
        req.header.get "Content-Encoding" = none) :=
  sendRequest_compression demoEnv (gzipClient 3 ⟨204, ""⟩) endpointPutAll 0 [1, 2, 3]
    [0x1f, 0x8b, 1, 2, 3] (by decide) (by decide)

/-- C2 (non-success classification): for each of `GetAll`, `PutAll` and `EvictAll`, when the
call gets a response whose status code is neither 200 nor 204, it returns an error (and
`GetAll` no results) whose message is `unexpected response code <code>: <trimmed body>`, where
the code is written in decimal and the trimmed body is the response body without the white
space at its two ends. -/
theorem nonSuccess_is_error {T : Type} (env : Env) (codec : Codec T) (c : Client)
    (resp : Response) (h200 : resp.statusCode ≠ 200) (h204 : resp.statusCode ≠ 204) :
    (∀ ids, Received env c endpointGetAll (utf8 (marshalIds ids)) resp →
      (GetAll env codec c ids).result = .error (.errorf
        ("unexpected response code " ++ toString resp.statusCode ++ ": "
          ++ TrimSpace resp.body))) ∧
    (∀ entries text, marshalEntries codec entries = some text →
      Received env c endpointPutAll (utf8 text) resp →
      (PutAll env codec c entries).result = .error (.errorf
        ("unexpected response code " ++ toString resp.statusCode ++ ": "
          ++ TrimSpace resp.body))) ∧
    (∀ ids, Received env c endpointEvictAll (utf8 (marshalIds ids)) resp →
      (EvictAll env c ids).result = .error (.errorf
        ("unexpected response code " ++ toString resp.statusCode ++ ": "
          ++ TrimSpace resp.body))) ∧
    ∃ pre suf : List Char, resp.body.data = pre ++ (TrimSpace resp.body).data ++ suf ∧
      (∀ x ∈ pre, isSpace x = true) ∧ (∀ x ∈ suf, isSpace x = true) ∧
      (∀ x, (TrimSpace resp.body).data.head? = some x → isSpace x = false) ∧
      (∀ x, (TrimSpace resp.body).data.getLast? = some x → isSpace x = false) := by
  have hs : resp.statusCode ≠ 200 ∧ resp.statusCode ≠ 204 := ⟨h200, h204⟩
  refine ⟨?_, ?_, ?_, trimSpace_spec resp.body⟩
  · intro ids hrecv
    rw [getAll_of_sent, sendRequest_result _ _ _ _ _ resp hrecv, if_pos hs]; rfl
  · intro entries text hmar hrecv
    rw [putAll_of_sent _ _ _ _ text hmar, sendRequest_result _ _ _ _ _ resp hrecv, if_pos hs]
    rfl
  · intro ids hrecv
    rw [evictAll_of_sent, sendRequest_result _ _ _ _ _ resp hrecv, if_pos hs]; rfl

/-- Witness for C2: status 500 with body `  boom` and a line end. -/
theorem nonSuccess_is_error_witness :
    (GetAll demoEnv stringCodec (demoClient ⟨500, "  boom\n"⟩) (.mk [⟨"users", "1"⟩])).result
      = .error (.errorf "unexpected response code 500: boom") ∧
    (PutAll demoEnv stringCodec (demoClient ⟨500, "  boom\n"⟩)
      (.mk [(⟨"users", "1", "Alice"⟩ : CacheEntry String)])).result
      = .error (.errorf "unexpected response code 500: boom") ∧
    (EvictAll demoEnv (demoClient ⟨500, "  boom\n"⟩) (.mk [⟨"users", "1"⟩])).result
      = .error (.errorf "unexpected response code 500: boom") :=
  have h := nonSuccess_is_error demoEnv stringCodec (demoClient ⟨500, "  boom\n"⟩)
    ⟨500, "  boom\n"⟩ (by decide) (by decide)
  ⟨h.1 (.mk [⟨"users", "1"⟩]) (demo_received _ _ _),
    h.2.1 (.mk [(⟨"users", "1", "Alice"⟩ : CacheEntry String)])
      "[\x7b\"c\":\"users\",\"k\":\"1\",\"v\":\"Alice\"\x7d]".data (by decide)
      (demo_received _ _ _),
    h.2.2.1 (.mk [⟨"users", "1"⟩]) (demo_received _ _ _)⟩

/-- C4, counterexample: of a base URL ending in two slashes only one is removed; the stored
base URL still ends in a slash and the request URL has a doubled slash at the junction. -/
theorem double_slash_kept :
    (NewWithOptions demoEnv "http://cache//" 0 0 0 0 none).baseURL = "http://cache/" ∧
    hasSuffixSlash (NewWithOptions demoEnv "http://cache//" 0 0 0 0 none).baseURL = true ∧
    requestURL (NewWithOptions demoEnv "http://cache//" 0 0 0 0 none) endpointGetAll
      = "http://cache//api/v1/cache/get_all" := by
  decide

/-- C4, amended: for every base URL that ends in a single slash (the text `stem` in front of
that slash does not end in a slash) the stored base URL is `stem`: it does not end in a slash,
and the request URL is `stem` followed by the endpoint path, whose leading slash is the only
one at the junction. -/
theorem baseURL_normalised (env : Env) (stem : List Char) (gzipThreshold : Int)
    (getTimeout putTimeout evictTimeout : Int) (httpClient : Option Transport)
    (endpoint : String) (hstem : stem.getLast? ≠ some '/') :
    (NewWithOptions env (String.mk (stem ++ ['/'])) gzipThreshold getTimeout putTimeout
      evictTimeout httpClient).baseURL = String.mk stem ∧
    hasSuffixSlash (NewWithOptions env (String.mk (stem ++ ['/'])) gzipThreshold getTimeout
      putTimeout evictTimeout httpClient).baseURL = false ∧
    requestURL (NewWithOptions env (String.mk (stem ++ ['/'])) gzipThreshold getTimeout
      putTimeout evictTimeout httpClient) endpoint = String.mk (stem ++ endpoint.data) := by
  have h1 : hasSuffixSlash (String.mk (stem ++ ['/'])) = true := by
    simp [hasSuffixSlash]
  have h2 : (NewWithOptions env (String.mk (stem ++ ['/'])) gzipThreshold getTimeout putTimeout
      evictTimeout httpClient).baseURL = String.mk stem := by
    simp [NewWithOptions, trimSuffixSlash, h1]
  refine ⟨h2, ?_, ?_⟩
  · rw [h2]; simpa [hasSuffixSlash] using hstem
  · rw [requestURL, h2]; rfl

/-- Witness for the amended C4: the base URL `http://cache/`. -/
theorem baseURL_normalised_witness :
    (NewWithOptions demoEnv "http://cache/" 0 0 0 0 none).baseURL = "http://cache" ∧
    hasSuffixSlash (NewWithOptions demoEnv "http://cache/" 0 0 0 0 none).baseURL = false ∧
    requestURL (NewWithOptions demoEnv "http://cache/" 0 0 0 0 none) endpointGetAll
      = "http://cache/api/v1/cache/get_all" :=
  baseURL_normalised demoEnv "http://cache".data 0 0 0 0 none endpointGetAll (by decide)

/-- C5, counterexample: for a nil slice of identifiers the request body of `GetAll` and of
`EvictAll` is the text `null`, which is not a JSON array; and when the compression policy
applies the request body is the compressed form of the text, not the text. -/
theorem ids_body_not_array :
    marshalIds .nil = "null".data ∧
    (sentRequests (GetAll demoEnv stringCodec (demoClient ⟨200, "[]"⟩) .nil).trace).map
      Request.body = [[110, 117, 108, 108]] ∧
    (sentRequests (EvictAll demoEnv (demoClient ⟨204, ""⟩) .nil).trace).map
      Request.body = [[110, 117, 108, 108]] ∧
    (sentRequests (GetAll demoEnv stringCodec (gzipClient 2 ⟨200, "[]"⟩) (.mk [])).trace).map
      Request.body = [[0x1f, 0x8b, 91, 93]] := by
  decide

/-- C5, amended: for every non-nil sequence of `CacheId` values (the empty one included) the
request body that `GetAll` and `EvictAll` produce is the UTF-8 text of a JSON array that holds
one object per identifier, in input order, each with exactly the two members `c` (cache name)
then `k` (key): the text is written out, it is a JSON text of that array by the JSON
grammar, and the scanner reads all of it as that array. The request carries this body as it
is, or its gzip compression when the compression policy applies. The identifiers `(users, 1), (users, 2)` give the text of the test, and a nil slice
gives the JSON value `null`. -/
theorem ids_wire_encoding {T : Type} (env : Env) (codec : Codec T) (c : Client)
    (ids : List CacheId) :
    marshalIds (.mk ids) =
      '[' :: List.intercalate [','] (ids.map fun id =>
        "\x7b\"c\":".data ++ quote id.CacheName ++ ",\"k\":".data ++ quote id.Key ++ ['}'])
        ++ [']'] ∧
    Spells (.arr (ids.map fun id => .obj [("c", .str id.CacheName), ("k", .str id.Key)]))
      (marshalIds (.mk ids)) ∧
    run [] .beginValue (marshalIds (.mk ids))
      = .value
          (.arr (ids.map fun id => .obj [("c", .str id.CacheName), ("k", .str id.Key)])) [] ∧
    (∀ z, env.validURL (requestURL c endpointGetAll) = true →
      env.gzip (utf8 (marshalIds (.mk ids))) = some z →
      (sentRequests (GetAll env codec c (.mk ids)).trace).map Request.body =
        [if 0 < c.gzipThreshold ∧
            c.gzipThreshold ≤ ((utf8 (marshalIds (.mk ids))).length : Int)
          then z else utf8 (marshalIds (.mk ids))]) ∧
    (∀ z, env.validURL (requestURL c endpointEvictAll) = true →
      env.gzip (utf8 (marshalIds (.mk ids))) = some z →
      (sentRequests (EvictAll env c (.mk ids)).trace).map Request.body =
        [if 0 < c.gzipThreshold ∧
            c.gzipThreshold ≤ ((utf8 (marshalIds (.mk ids))).length : Int)
          then z else utf8 (marshalIds (.mk ids))]) ∧
    marshalIds (.mk [⟨"users", "1"⟩, ⟨"users", "2"⟩])
      = "[\x7b\"c\":\"users\",\"k\":\"1\"\x7d,\x7b\"c\":\"users\",\"k\":\"2\"\x7d]".data ∧
    readValue (marshalIds .nil) .eof = .ok (.null, []) := by
  refine ⟨marshalIds_text ids, spells_arr (ids.map idJson) (fitsElems_ids 9998 ids), ?_, ?_, ?_,
    by decide, readValue_null []⟩
  · have h := run_arr (ids.map idJson) [] (fitsElems_ids 9998 ids)
    rw [List.append_nil] at h
    exact h
  · intro z hurl hz
    rw [getAll_sent, sendRequest_body env c _ _ _ z hurl hz]
  · intro z hurl hz
    rw [evictAll_sent, sendRequest_body env c _ _ _ z hurl hz]

/-- Witness for the amended C5: the identifiers of the test, sent uncompressed. -/
theorem ids_wire_encoding_witness :
    (sentRequests (GetAll demoEnv stringCodec (demoClient ⟨200, "[]"⟩)
      (.mk [⟨"users", "1"⟩, ⟨"users", "2"⟩])).trace).map Request.body
      = [utf8 "[\x7b\"c\":\"users\",\"k\":\"1\"\x7d,\x7b\"c\":\"users\",\"k\":\"2\"\x7d]".data] ∧
    (sentRequests (EvictAll demoEnv (gzipClient 10 ⟨204, ""⟩)
      (.mk [⟨"users", "1"⟩, ⟨"users", "2"⟩])).trace).map Request.body
      = [0x1f :: 0x8b ::
          utf8 "[\x7b\"c\":\"users\",\"k\":\"1\"\x7d,\x7b\"c\":\"users\",\"k\":\"2\"\x7d]".data] :=
  ⟨(ids_wire_encoding demoEnv stringCodec (demoClient ⟨200, "[]"⟩)
      [⟨"users", "1"⟩, ⟨"users", "2"⟩]).2.2.2.1 _ (by decide) rfl,
    (ids_wire_encoding (T := String) demoEnv stringCodec (gzipClient 10 ⟨204, ""⟩)
      [⟨"users", "1"⟩, ⟨"users", "2"⟩]).2.2.2.2.1 _ (by decide) rfl⟩

/-- When no part of the body has arrived by the time `sendRequest` returns, `GetAll` fails
with `context canceled`, whatever the service sends as the body of its 200 response. -/
theorem getAll_late {T : Type} (env : Env) (codec : Codec T) (c : Client)
    (ids : Slice CacheId) (resp : Response) (hcode : resp.statusCode = 200)
    (hrecv : Received env c endpointGetAll (utf8 (marshalIds ids)) resp)
    (hlate : env.arrived resp = some 0) :
    (GetAll env codec c ids).result = .error (.decode .canceled) := by
  obtain ⟨req, _, _, hres⟩ := getAll_received env codec c ids resp (Or.inl hcode) hrecv
  rw [hres, bodyText, bodyEnding, hlate]
  rfl

/-- The fetch round trip on a body that has arrived: for every list of hits whose values are
JSON-representable (cache names and keys being text), when the call gets a 200 response whose
body is the JSON encoding of the list (followed by anything, such as the line end the encoder
of the test server adds) and the body has arrived in full when it is read, `GetAll` returns
without error a list equal to the original. -/
theorem getAll_roundtrip {T : Type} (env : Env) (codec : Codec T) (c : Client)
    (ids : Slice CacheId) (hits : Slice (CacheEntryHit T)) (text tail : List Char)
    (resp : Response)
    (hrep : ∀ h ∈ hits.toList, Representable codec h.Value)
    (henc : marshalHits codec hits = some text)
    (hcode : resp.statusCode = 200) (hbody : resp.body = String.mk (text ++ tail))
    (hrecv : Received env c endpointGetAll (utf8 (marshalIds ids)) resp)
    (harr : env.arrived resp = none) :
    (GetAll env codec c ids).result = .ok hits := by
  obtain ⟨req, _, _, hres⟩ := getAll_received env codec c ids resp (Or.inl hcode) hrecv
  rw [hres, bodyText, bodyEnding, harr, hbody]
  dsimp only
  cases hits with
  | nil =>
    simp only [marshalHits, hitsJson, Option.map_some', Option.some.injEq] at henc
    subst henc
    simp [Decode, readValue_null, unmarshalHits]
  | mk hs =>
    simp only [marshalHits, hitsJson, Option.map_map] at henc
    cases hobjs : mapOption (hitJson codec) hs with
    | none => simp [hobjs] at henc
    | some objs =>
      simp only [hobjs, Option.map_some', Function.comp_apply, Option.some.injEq] at henc
      subst henc
      obtain ⟨h1, h2⟩ := hits_encode codec hs objs hrep hobjs
      simp [Decode, readValue_arr objs tail .eof h1, unmarshalHits, h2]

/-- C6, the code at a response whose body arrives after its header: the service answers 200
with the JSON encoding of the two results of the test; when the body has arrived by the time
it is read `GetAll` returns the list, but when `sendRequest` returns before the body has
arrived `GetAll` returns the error `context canceled` and no list. -/
theorem getAll_roundtrip_canceled :
    marshalHits stringCodec (.mk [⟨"users", "1", "Alice", true⟩, ⟨"users", "2", "", false⟩])
      = some "[\x7b\"c\":\"users\",\"k\":\"1\",\"v\":\"Alice\",\"f\":true\x7d,\x7b\"c\":\"users\",\"k\":\"2\",\"v\":\"\",\"f\":false\x7d]".data ∧
    (GetAll lateEnv stringCodec
      (demoClient ⟨200, "[\x7b\"c\":\"users\",\"k\":\"1\",\"v\":\"Alice\",\"f\":true\x7d,\x7b\"c\":\"users\",\"k\":\"2\",\"v\":\"\",\"f\":false\x7d]\n"⟩)
      (.mk [⟨"users", "1"⟩, ⟨"users", "2"⟩])).result
      = .error (.decode .canceled) ∧
    (GetAll demoEnv stringCodec
      (demoClient ⟨200, "[\x7b\"c\":\"users\",\"k\":\"1\",\"v\":\"Alice\",\"f\":true\x7d,\x7b\"c\":\"users\",\"k\":\"2\",\"v\":\"\",\"f\":false\x7d]\n"⟩)
      (.mk [⟨"users", "1"⟩, ⟨"users", "2"⟩])).result
      = .ok (.mk [⟨"users", "1", "Alice", true⟩, ⟨"users", "2", "", false⟩]) := by
  decide

/-- Not-found tolerance on a body that has arrived: in a fetch response array, as an encoder
writes it, a result object whose members for `f` are false, whose members for `v` (if any)
hold a value that decodes to the zero value, and whose members for `c` and `k` are strings,
in any order and among any other members, is decoded into an entry with `Found = false` and
the zero value; the entries before and after it decode as they do on their own, and `GetAll`
fails only if one of those fails. -/
theorem notFound_tolerated {T : Type} (env : Env) (codec : Codec T) (c : Client)
    (ids : Slice CacheId) (resp : Response) (before after : List Json)
    (kvs : List (String × Json)) (tail : List Char)
    (hcode : resp.statusCode = 200)
    (hrecv : Received env c endpointGetAll (utf8 (marshalIds ids)) resp)
    (harr : env.arrived resp = none)
    (hbody : resp.body.data = render (.arr (before ++ .obj kvs :: after)) ++ tail)
    (hfit : Json.fitsElems (maxNestingDepth - 1) (before ++ .obj kvs :: after) = true)
    (hnf : NotFoundMembers codec kvs) :
    decodeElem codec (.obj kvs)
      = some ⟨lastString .c "" kvs, lastString .k "" kvs, codec.zero, false⟩ ∧
    (GetAll env codec c ids).result =
      (match mapOption (decodeElem codec) before, mapOption (decodeElem codec) after with
        | some a, some b =>
          .ok (.mk (a ++ ⟨lastString .c "" kvs, lastString .k "" kvs, codec.zero, false⟩ :: b))
        | _, _ => .error (.decode .unmarshal)) := by
  have he := decodeElem_notFound codec kvs hnf
  refine ⟨he, ?_⟩
  obtain ⟨req, _, _, hres⟩ := getAll_received env codec c ids resp (Or.inl hcode) hrecv
  rw [hres, bodyText, bodyEnding, harr]
  dsimp only
  rw [hbody, Decode, readValue_arr _ tail .eof hfit]
  dsimp only
  rw [unmarshalHits, mapOption_append, mapOption, he]
  cases mapOption (decodeElem codec) before <;> cases mapOption (decodeElem codec) after <;> rfl

/-- C8, the code at a response whose body arrives after its header: the service answers 200
with an array whose second result is for a key that was not found (`f` false, no `v`); when
the body has arrived by the time it is read `GetAll` decodes it, the second entry with
`Found = false` and the zero value, but when `sendRequest` returns before the body has
arrived `GetAll` returns the error `context canceled` and no entries. -/
theorem notFound_canceled :
    (GetAll lateEnv stringCodec
      (demoClient ⟨200, "[\x7b\"c\":\"users\",\"k\":\"1\",\"v\":\"Alice\",\"f\":true\x7d,\x7b\"f\":false,\"k\":\"2\",\"c\":\"users\"\x7d]"⟩)
      (.mk [⟨"users", "1"⟩, ⟨"users", "2"⟩])).result
      = .error (.decode .canceled) ∧
    (GetAll demoEnv stringCodec
      (demoClient ⟨200, "[\x7b\"c\":\"users\",\"k\":\"1\",\"v\":\"Alice\",\"f\":true\x7d,\x7b\"f\":false,\"k\":\"2\",\"c\":\"users\"\x7d]"⟩)
      (.mk [⟨"users", "1"⟩, ⟨"users", "2"⟩])).result
      = .ok (.mk [⟨"users", "1", "Alice", true⟩, ⟨"users", "2", "", false⟩]) := by
  decide

/-- C9, the code at a successful fetch: the deferred `cancel()` of `sendRequest` has run
before `GetAll` reads and decodes the response body. -/
theorem getAll_cancel_precedes_decode :
    (GetAll demoEnv stringCodec (demoClient ⟨200, "[]"⟩) (.mk [⟨"users", "1"⟩])).trace =
      [.withTimeout 5000000000,
       .send ⟨"POST", "http://cache/api/v1/cache/get_all", [("Content-Type", "application/json")],
         utf8 "[\x7b\"c\":\"users\",\"k\":\"1\"\x7d]".data, 23⟩,
       .cancel, .decodeBody, .closeBody] := by
  decide

/-- In every call of `GetAll` that decodes a response body, the deadline context has been
cancelled immediately before. -/
theorem getAll_decodes_after_cancel {T : Type} (env : Env) (codec : Codec T) (c : Client)
    (ids : Slice CacheId) :
    Event.decodeBody ∉ (GetAll env codec c ids).trace ∨
    ∃ req, (GetAll env codec c ids).trace
      = [.withTimeout c.getTimeout, .send req, .cancel, .decodeBody, .closeBody] := by
  unfold GetAll
  dsimp only
  rcases sendRequest_cases env c endpointGetAll c.getTimeout (utf8 (marshalIds ids)) with
    h1 | h1 | ⟨req, msg, h1⟩ | ⟨req, r, _, h1⟩ | ⟨req, r, _, h1⟩
  all_goals rw [h1]
  · left; simp
  · left; simp
  · left; simp
  · left; simp
  · right
    refine ⟨req, ?_⟩
    dsimp only
    cases Decode codec (bodyText env r) (bodyEnding env r) <;> rfl

/-- C10 (`PutAll` and `EvictAll` ignore the response body): for every batch that can be
encoded, when the call gets a response with status 200 or 204, whatever its body, `PutAll`
and `EvictAll` return without error; they close the body and neither read nor decode it. -/
theorem put_evict_ignore_body {T : Type} (env : Env) (codec : Codec T) (c : Client)
    (resp : Response) (hcode : resp.statusCode = 200 ∨ resp.statusCode = 204) :
    (∀ entries text, marshalEntries codec entries = some text →
      Received env c endpointPutAll (utf8 text) resp →
      (PutAll env codec c entries).result = .ok () ∧
      (∃ req, (PutAll env codec c entries).trace
        = [.withTimeout c.putTimeout, .send req, .cancel, .closeBody]) ∧
      Event.decodeBody ∉ (PutAll env codec c entries).trace ∧
      Event.readAll ∉ (PutAll env codec c entries).trace) ∧
    (∀ ids, Received env c endpointEvictAll (utf8 (marshalIds ids)) resp →
      (EvictAll env c ids).result = .ok () ∧
      (∃ req, (EvictAll env c ids).trace
        = [.withTimeout c.evictTimeout, .send req, .cancel, .closeBody]) ∧
      Event.decodeBody ∉ (EvictAll env c ids).trace ∧
      Event.readAll ∉ (EvictAll env c ids).trace) := by
  constructor
  · intro entries text hmar hrecv
    obtain ⟨req, _, h⟩ := putAll_received env codec c entries text resp hcode hmar hrecv
    rw [h]
    exact ⟨rfl, ⟨req, rfl⟩, by simp, by simp⟩
  · intro ids hrecv
    obtain ⟨req, _, h⟩ := evictAll_received env c ids resp hcode hrecv
    rw [h]
    exact ⟨rfl, ⟨req, rfl⟩, by simp, by simp⟩

/-- Witness for C10: a 200 response whose body is not JSON. -/
theorem put_evict_ignore_body_witness :
    ((PutAll demoEnv stringCodec (demoClient ⟨200, "<html>not json"⟩)
      (.mk [(⟨"users", "1", "Alice"⟩ : CacheEntry String)])).result = .ok () ∧
      Event.decodeBody ∉ (PutAll demoEnv stringCodec (demoClient ⟨200, "<html>not json"⟩)
        (.mk [(⟨"users", "1", "Alice"⟩ : CacheEntry String)])).trace) ∧
    ((EvictAll demoEnv (demoClient ⟨200, "<html>not json"⟩) (.mk [⟨"users", "1"⟩])).result
      = .ok () ∧
      Event.decodeBody ∉
        (EvictAll demoEnv (demoClient ⟨200, "<html>not json"⟩) (.mk [⟨"users", "1"⟩])).trace) :=
  have h := put_evict_ignore_body demoEnv stringCodec (demoClient ⟨200, "<html>not json"⟩)
    ⟨200, "<html>not json"⟩ (by decide)
  have hput := h.1 (.mk [(⟨"users", "1", "Alice"⟩ : CacheEntry String)])
    "[\x7b\"c\":\"users\",\"k\":\"1\",\"v\":\"Alice\"\x7d]".data (by decide)
    (demo_received _ _ _)
  have hevict := h.2 (.mk [⟨"users", "1"⟩]) (demo_received _ _ _)
  ⟨⟨hput.1, hput.2.2.1⟩, ⟨hevict.1, hevict.2.2.1⟩⟩

end Cache
